import Mathlib

/-!
# Verification of the `rawr` library manager against its specification

Shallow embedding of the parts of the `rawr` crates that the checked claims
concern:

* `crates/extract`: the `Version`/`Metadata` data model and the version
  comparison algorithm (`compare.rs`).
* `crates/storage`: the path validator (`path.rs`) and the `FileInfo` model
  (`file.rs`).
* `crates/cache`: the repository (`repo.rs`) over an explicit table state,
  the row models and the left-join decoding (`models/join.rs`).
* `crates/library`: the single-file scan (`scan/file.rs`), the organize
  pipeline with conflict resolution (`organize/file.rs`,
  `organize/conflict.rs`), and the streaming scan event order
  (`scan/stream.rs`) as a labelled transition system.

Machine integers are modelled as `Nat`/`Int`; the `u64 → i64` conversions
that can fail in the source (`i64::try_from` raising `InvalidData`) are
modelled with explicit bound checks.  Timestamps (`UtcDateTime`, `Date`)
are modelled as `Int` (unix seconds / day ordinals); no claim depends on
calendar structure.  BLAKE3 hashing, HTML extraction, decompression and
the path template are external collaborators and are passed in as function
parameters, exactly as the pipelines consume them.
-/

set_option autoImplicit false

namespace Rawr

/-! ## Compression (`rawr-compress`, consumed as an enum by the core) -/

/-- Compression format enum.  The core only compares formats for equality,
turns them into file-extension suffixes, and dispatches decompression; the
codecs themselves are external collaborators. -/
inductive Compression
  | none
  | gzip
  | bzip2
  deriving DecidableEq, Repr

/-- `Compression::extension()`: the dot-prefixed suffix appended to paths. -/
def Compression.extension : Compression → String
  | .none => ""
  | .gzip => ".gz"
  | .bzip2 => ".bz2"

/-- `Compression::to_string()` as stored in the `files.compression` column. -/
def Compression.toText : Compression → String
  | .none => "none"
  | .gzip => "gzip"
  | .bzip2 => "bzip2"

/-- `str::parse::<Compression>()` used when decoding a `FileRow`. -/
def Compression.parseText (s : String) : Option Compression :=
  if s = "none" then some .none
  else if s = "gzip" then some .gzip
  else if s = "bzip2" then some .bzip2
  else Option.none

/-! ## Extract data model (`crates/extract/src/models`) -/

/-- `Chapters` (`models/chapters.rs`): written is `u32`, total is
`Option<u32>`. -/
structure Chapters where
  written : Nat
  total : Option Nat
  deriving DecidableEq, Repr

/-- `Metadata` (`models/metadata.rs`).  Structured facet types (authors,
fandoms, series positions, tags, warnings, language) are carried as plain
strings: no checked claim inspects their internal structure.  Dates are
unix-style integers. -/
structure Metadata where
  work_id : Nat
  title : String
  authors : List String
  fandoms : List String
  series : List String
  chapters : Chapters
  words : Nat
  rating : Option String
  warnings : List String
  tags : List String
  summary : Option String
  language : String
  published : Int
  last_modified : Int
  deriving DecidableEq, Repr

/-- `Version` (`models/version.rs`): hash is the BLAKE3 content hash
(primary key), `length` the decompressed byte count (`u64`), `crc32` a
`u32`. -/
structure Version where
  hash : String
  length : Nat
  crc32 : Nat
  metadata : Metadata
  extracted_at : Int
  deriving DecidableEq, Repr

/-! ## Version comparison (`crates/extract/src/compare.rs`)

The source computes the two deletion-notice thresholds in `f64`:
`self.chapters.written < other.chapters.written * 0.5` and
`self.length < other.length * 0.2`.  Both are modelled by the exact
integer inequalities `2 * a < b` and `5 * a < b`; for `* 0.5` the two
agree on all `u32` inputs, and for `* 0.2` they agree everywhere except
astronomically large lengths near `2^53` where `f64` rounding could
differ.  Every theorem below evaluates the comparison only on small
concrete values, far from any rounding boundary. -/

/-- `Version::appears_to_be_deletion_notice` (compare.rs lines 15-23):
true when `self` has less than 50% of the written chapters of `other`
*and* less than 20% of the decompressed length of `other`. -/
def appearsToBeDeletionNotice (a b : Version) : Bool :=
  decide (2 * a.metadata.chapters.written < b.metadata.chapters.written)
    && decide (5 * a.length < b.length)

/-- Rust `Ord::cmp` on `Nat` fields. -/
def natCmp (a b : Nat) : Ordering :=
  if a < b then .lt else if a = b then .eq else .gt

/-- Rust `Ord::cmp` on `Int` fields (dates). -/
def intCmp (a b : Int) : Ordering :=
  if a < b then .lt else if a = b then .eq else .gt

/-- `Ord for Metadata` (compare.rs lines 51-72): last_modified, then
words, then chapters.written, then published, otherwise equal. -/
def metadataCmp (a b : Metadata) : Ordering :=
  if a.last_modified ≠ b.last_modified then intCmp a.last_modified b.last_modified
  else if a.words ≠ b.words then natCmp a.words b.words
  else if a.chapters.written ≠ b.chapters.written then
    natCmp a.chapters.written b.chapters.written
  else if a.published ≠ b.published then intCmp a.published b.published
  else .eq

/-- `Ord for Version` (compare.rs lines 25-44): deletion-notice detection
first (symmetrically), then metadata comparison. -/
def versionCmp (a b : Version) : Ordering :=
  if appearsToBeDeletionNotice a b then .lt
  else if appearsToBeDeletionNotice b a then .gt
  else metadataCmp a.metadata b.metadata

/-! ## Path validator (`crates/storage/src/path.rs`) -/

/-- `std::path::Component`, restricted to what `Path::components()` can
produce.  `windowsDrive` stands for `Component::Prefix` (a Windows drive
or UNC prefix); on Unix the parser never produces it, but `validate`
matches on it. -/
inductive PathComponent
  | rootDir
  | curDir
  | parentDir
  | windowsDrive
  | normal (s : String)
  deriving DecidableEq, Repr

/-- Split a character list on `/` separators. -/
def splitSlash : List Char → List Char → List String
  | [], cur => [String.mk cur.reverse]
  | c :: cs, cur =>
    if c = '/' then String.mk cur.reverse :: splitSlash cs []
    else splitSlash cs (c :: cur)

/-- The non-empty `/`-separated pieces of a path string. -/
def pathParts (s : String) : List String :=
  (splitSlash s.data []).filter (fun p => p ≠ "")

/-- Whether a Unix path string is absolute (begins with `/`). -/
def isAbsolutePath (s : String) : Bool :=
  match s.data with
  | c :: _ => c = '/'
  | [] => false

/-- `Path::components()` for Unix path strings: duplicate separators
collapse, `.` components are dropped except a leading one, a leading `/`
becomes `RootDir`, and `..` becomes `ParentDir`. -/
def parseComponents (s : String) : List PathComponent :=
  let parts := pathParts s
  let lead : List PathComponent :=
    if isAbsolutePath s then [.rootDir]
    else
      match parts with
      | p :: _ => if p = "." then [.curDir] else []
      | [] => []
  lead ++ (parts.filter (fun p => p ≠ ".")).map
    (fun p => if p = ".." then PathComponent.parentDir else PathComponent.normal p)

/-- The component loop of `validate` (path.rs lines 43-63), with the
`Vec` of kept components as a reversed accumulator.  `none` models
`Err(InvalidPath)`. -/
def validateGo : List PathComponent → List String → Option (List String)
  | [], acc => if acc.isEmpty then Option.none else some acc.reverse
  | c :: cs, acc =>
    match c with
    | .normal s =>
      if s.data.contains (Char.ofNat 0) then Option.none else validateGo cs (s :: acc)
    | .curDir => validateGo cs acc
    | .rootDir => validateGo cs acc
    | .windowsDrive => Option.none
    | .parentDir =>
      match acc with
      | [] => Option.none
      | _ :: rest => validateGo cs rest

/-- `validate` over an already-parsed component list. -/
def validateComponents (cs : List PathComponent) : Option (List String) :=
  validateGo cs []

/-- `validate` (path.rs lines 39-68) on a Unix path string, returning the
normalized component list of the accepted path. -/
def validatePath (s : String) : Option (List String) :=
  validateComponents (parseComponents s)

/-! ## Storage file model (`crates/storage/src/file.rs`)

`FileInfo<Discovered>` carries no hashes and is just the metadata, so it is
modelled by `FileMeta` itself; `FileInfo<Processed>` is `FileP` below.
`PathBuf` is modelled as the relative path `String` (cache rows reject
non-UTF8 paths, which the model cannot represent). -/

/-- `FileMeta` (file.rs lines 57-65). -/
structure FileMeta where
  target : String
  path : String
  compression : Compression
  size : Nat
  discovered_at : Int
  deriving DecidableEq, Repr

/-- `FileInfo<Processed>`: metadata plus both hashes. -/
structure FileP where
  meta : FileMeta
  file_hash : String
  content_hash : String
  deriving DecidableEq, Repr

/-- `FileMeta::with_file_hash` then `FileInfo::<Read>::with_content_hash`. -/
def FileMeta.withHashes (m : FileMeta) (fh ch : String) : FileP :=
  { meta := m, file_hash := fh, content_hash := ch }

/-! ## Cache rows (`crates/cache/src/models`) -/

-- Decidable equality for `Except` results, used to evaluate concrete
-- repository runs in witnesses.
deriving instance DecidableEq for Except

/-- `ErrorKind` of the cache crate (`error.rs`). -/
inductive CacheErr
  | database
  | migration
  | invalidData (field : String)
  | constraint
  deriving DecidableEq, Repr

/-- `FileRow` (models/file.rs lines 8-17).  `file_size` is the SQLite
`i64` column. -/
structure FileRow where
  target : String
  path : String
  compression : String
  file_size : Int
  file_hash : String
  content_hash : String
  discovered_at : Int
  deriving DecidableEq, Repr

/-- `VersionRow` (models/version.rs lines 9-31).  The five JSON-encoded
list columns (authors, fandoms, series, warnings, tags) are carried as the
raw lists — the facet-proxy JSON round trip is not touched by any claim.
`content_crc32` and `chapters_written` are written with the total
`i64::from(u32)` and are modelled as `Nat` (the fallible read-back
`u32::try_from` can only fail on rows this model cannot produce). -/
structure VersionRow where
  content_hash : String
  content_crc32 : Nat
  work_id : Int
  content_size : Int
  title : String
  authors : List String
  fandoms : List String
  series : List String
  chapters_written : Nat
  chapters_total : Option Nat
  words : Int
  summary : Option String
  rating : Option String
  warnings : List String
  lang : String
  published_on : Int
  last_modified : Int
  tags : List String
  extracted_at : Int
  deriving DecidableEq, Repr

/-- `FileRow::try_from(&FileInfo<Processed>)` (models/file.rs lines
18-31): the only fallible step for this model is the
`i64::try_from(file.size)` bound check. -/
def FileRow.ofFileP (f : FileP) : Except CacheErr FileRow :=
  if f.meta.size < 2 ^ 63 then
    .ok { target := f.meta.target, path := f.meta.path
          compression := f.meta.compression.toText
          file_size := Int.ofNat f.meta.size, file_hash := f.file_hash
          content_hash := f.content_hash, discovered_at := f.meta.discovered_at }
  else .error (.invalidData "file size")

/-- `FileInfo::<Processed>::try_from(FileRow)` (models/file.rs lines
32-48): compression string parse and `u64::try_from(file_size)`. -/
def FileP.ofRow (r : FileRow) : Except CacheErr FileP :=
  match Compression.parseText r.compression with
  | Option.none => .error (.invalidData "compression format")
  | some c =>
    if 0 ≤ r.file_size then
      .ok { meta := { target := r.target, path := r.path, compression := c
                      size := r.file_size.toNat, discovered_at := r.discovered_at }
            file_hash := r.file_hash, content_hash := r.content_hash }
    else .error (.invalidData "file size")

/-- `VersionRow::try_from(&Version)` (models/version.rs lines 32-62):
`i64::try_from` bound checks on work_id, content size and words, in the
field order of the struct literal. -/
def VersionRow.ofVersion (v : Version) : Except CacheErr VersionRow :=
  if v.metadata.work_id < 2 ^ 63 then
    if v.length < 2 ^ 63 then
      if v.metadata.words < 2 ^ 63 then
        .ok { content_hash := v.hash, content_crc32 := v.crc32
              work_id := Int.ofNat v.metadata.work_id
              content_size := Int.ofNat v.length
              title := v.metadata.title, authors := v.metadata.authors
              fandoms := v.metadata.fandoms, series := v.metadata.series
              chapters_written := v.metadata.chapters.written
              chapters_total := v.metadata.chapters.total
              words := Int.ofNat v.metadata.words
              summary := v.metadata.summary, rating := v.metadata.rating
              warnings := v.metadata.warnings, lang := v.metadata.language
              published_on := v.metadata.published
              last_modified := v.metadata.last_modified
              tags := v.metadata.tags, extracted_at := v.extracted_at }
      else .error (.invalidData "words")
    else .error (.invalidData "content size")
  else .error (.invalidData "work id")

/-- `Version::try_from(VersionRow)` (models/version.rs lines 63-110):
`u64::try_from` on the signed columns (succeeds exactly when
non-negative). -/
def Version.ofRow (r : VersionRow) : Except CacheErr Version :=
  if 0 ≤ r.work_id then
    if 0 ≤ r.content_size then
      if 0 ≤ r.words then
        .ok { hash := r.content_hash, length := r.content_size.toNat
              crc32 := r.content_crc32
              metadata := { work_id := r.work_id.toNat, title := r.title
                            authors := r.authors, fandoms := r.fandoms
                            series := r.series
                            chapters := { written := r.chapters_written
                                          total := r.chapters_total }
                            words := r.words.toNat, rating := r.rating
                            warnings := r.warnings, tags := r.tags
                            summary := r.summary, language := r.lang
                            published := r.published_on
                            last_modified := r.last_modified }
              extracted_at := r.extracted_at }
      else .error (.invalidData "words")
    else .error (.invalidData "content length")
  else .error (.invalidData "work id")

/-! ## Cache repository over an explicit table state (`repo.rs`)

The `queries/*.sql` files are not part of the source tree, so the row-level
semantics of the individual statements is modelled from the spec (§4.3,
§4.4): `versions` is keyed by `content_hash` (insert-or-ignore on upsert),
`files` is keyed by `(target, path)` (insert-or-replace on upsert), and
reads join the two tables on `content_hash`. -/

/-- The two SQLite tables. -/
structure CacheState where
  files : List FileRow
  versions : List VersionRow
  deriving DecidableEq, Repr

def emptyCache : CacheState := { files := [], versions := [] }

/-- The file row stored at primary key `(target, path)`, if any. -/
def rowAt (s : CacheState) (t p : String) : Option FileRow :=
  s.files.find? (fun f => f.target = t && f.path = p)

/-- Whether any file row (in any target) records the given file hash. -/
def hashKnown (s : CacheState) (hsh : String) : Bool :=
  s.files.any (fun f => f.file_hash = hsh)

/-- Modelled from the spec: `queries/upsert_version.sql` is not in src.
Spec §4.4: "insert the version (on conflict by content_hash, do nothing —
versions are immutable by hash)". -/
def upsertVersionRow (vs : List VersionRow) (v : VersionRow) : List VersionRow :=
  if vs.any (fun w => w.content_hash = v.content_hash) then vs else vs ++ [v]

/-- Modelled from the spec: `queries/upsert_file.sql` is not in src.
Spec §4.4: "upsert the file row keyed by (target, path), replacing
compression/size/file_hash/content_hash/discovered_at on conflict". -/
def upsertFileRow (fs : List FileRow) (f : FileRow) : List FileRow :=
  if fs.any (fun g => g.target = f.target && g.path = f.path) then
    fs.map (fun g => if g.target = f.target && g.path = f.path then f else g)
  else fs ++ [f]

/-- `Repository::upsert` (repo.rs lines 112-158): constraint check, then
dry-run short-circuit, then row conversions, then the transaction.  The
returned state is the database after the call: unchanged on any error and
in dry-run mode. -/
def Repository.upsert (dryRun : Bool) (s : CacheState) (file : FileP) (version : Version) :
    Except CacheErr Unit × CacheState :=
  if file.content_hash ≠ version.hash then (.error .constraint, s)
  else if dryRun then (.ok (), s)
  else
    match VersionRow.ofVersion version with
    | .error e => (.error e, s)
    | .ok vrow =>
      match FileRow.ofFileP file with
      | .error e => (.error e, s)
      | .ok frow =>
        (.ok (), { files := upsertFileRow s.files frow
                   versions := upsertVersionRow s.versions vrow })

/-- `Repository::get_by_target_path` (repo.rs lines 167-179).  Modelled
from the spec for the missing SQL: a point lookup on the `files` primary
key joined with its version on `content_hash` (inner join). -/
def Repository.getByTargetPath (s : CacheState) (t p : String) :
    Except CacheErr (Option (FileP × Version)) :=
  match rowAt s t p with
  | Option.none => .ok Option.none
  | some frow =>
    match s.versions.find? (fun v => v.content_hash = frow.content_hash) with
    | Option.none => .ok Option.none
    | some vrow =>
      match FileP.ofRow frow with
      | .error e => .error e
      | .ok f =>
        match Version.ofRow vrow with
        | .error e => .error e
        | .ok v => .ok (some (f, v))

/-- The Rust idiom `collect::<Result<Vec<_>, _>>`: map, stopping at the first
error. -/
def exceptMap {ε α β : Type} (g : α → Except ε β) : List α → Except ε (List β)
  | [] => .ok []
  | a :: l =>
    match g a with
    | .error e => .error e
    | .ok b =>
      match exceptMap g l with
      | .error e => .error e
      | .ok bs => .ok (b :: bs)

/-- The raw inner-join rows behind `get_by_file_hash`: all file rows with
the given file hash, each joined with its version row. -/
def fileHashJoinRows (s : CacheState) (hsh : String) : List (FileRow × VersionRow) :=
  (s.files.filter (fun f => f.file_hash = hsh)).filterMap
    (fun fr => (s.versions.find? (fun v => v.content_hash = fr.content_hash)).map
      (fun vr => (fr, vr)))

/-- `Repository::get_by_file_hash` (repo.rs lines 200-208).  Modelled from
the spec for the missing SQL: all file rows with the given file hash, each
inner-joined with its version. -/
def Repository.getByFileHash (s : CacheState) (hsh : String) :
    Except CacheErr (List (FileP × Version)) :=
  exceptMap
    (fun rv =>
      match FileP.ofRow rv.1 with
      | .error e => .error e
      | .ok f =>
        match Version.ofRow rv.2 with
        | .error e => .error e
        | .ok v => .ok (f, v))
    (fileHashJoinRows s hsh)

/-- `ExistenceResult` (repo.rs lines 29-44). -/
inductive ExistenceResult
  | notFound
  | exactMatch (f : FileP) (v : Version)
  | hashMismatch (f : FileP) (v : Version)
  | locatedElsewhere (f : FileP) (v : Version)
  deriving DecidableEq, Repr

/-- Modelled from the spec: `Repository::exists` is commented out in
repo.rs (lines 435-451); only its declaration-side `ExistenceResult` and
its caller `scan_file_inner` are in src.  Spec §4.4: look up the record at
`(target, path)` and classify by file-hash equality; otherwise fall back
to the first file anywhere with that file hash. -/
def Repository.existsProbe (s : CacheState) (t p hsh : String) :
    Except CacheErr ExistenceResult :=
  match Repository.getByTargetPath s t p with
  | .error e => .error e
  | .ok (some (f, v)) =>
    if f.file_hash = hsh then .ok (.exactMatch f v) else .ok (.hashMismatch f v)
  | .ok Option.none =>
    match Repository.getByFileHash s hsh with
    | .error e => .error e
    | .ok rows =>
      match rows.head? with
      | some fv => .ok (.locatedElsewhere fv.1 fv.2)
      | Option.none => .ok .notFound

/-- Modelled from the spec: `delete_by_target_path` is called by the scan
and organize pipelines but only a commented-out `delete_by_path` exists in
repo.rs.  Spec §4.4: remove the file row only (may orphan a version); the
dry-run flag short-circuits the mutation. -/
def Repository.deleteByTargetPath (dryRun : Bool) (s : CacheState) (t p : String) : CacheState :=
  if dryRun then s
  else { s with files := s.files.filter (fun f => ¬(f.target = t ∧ f.path = p)) }

/-- Modelled from the spec: `update_target_path` is called by the organize
pipeline but only a commented-out `update_path` exists in repo.rs.  Spec
§4.4: rename the path of a file row. -/
def Repository.updateTargetPath (dryRun : Bool) (s : CacheState) (t oldP newP : String) : CacheState :=
  if dryRun then s
  else
    let upd := fun (f : FileRow) =>
      if f.target = t && f.path = oldP then { f with path := newP } else f
    { s with files := s.files.map upd }

/-! ## Left-join decoding (`crates/cache/src/models/join.rs`) -/

/-- The six file-side columns of a `versions LEFT JOIN files` result row,
as read by `LeftJoinRow::from_row` (join.rs lines 70-102). -/
structure RawFileCols where
  target : Option String
  path : Option String
  compression : Option String
  file_size : Option Int
  file_hash : Option String
  discovered_at : Option Int
  deriving DecidableEq, Repr

/-- The file columns of a present file row. -/
def fileColsOfRow (f : FileRow) : RawFileCols :=
  { target := some f.target, path := some f.path, compression := some f.compression
    file_size := some f.file_size, file_hash := some f.file_hash
    discovered_at := some f.discovered_at }

/-- All-NULL file columns (version with no referencing file). -/
def noFileCols : RawFileCols :=
  { target := Option.none, path := Option.none, compression := Option.none
    file_size := Option.none, file_hash := Option.none, discovered_at := Option.none }

def RawFileCols.allSomeB (c : RawFileCols) : Bool :=
  c.target.isSome && c.path.isSome && c.compression.isSome && c.file_size.isSome
    && c.file_hash.isSome && c.discovered_at.isSome

def RawFileCols.allNoneB (c : RawFileCols) : Bool :=
  c.target.isNone && c.path.isNone && c.compression.isNone && c.file_size.isNone
    && c.file_hash.isNone && c.discovered_at.isNone

/-- `LeftJoinRow::from_row` (join.rs lines 70-102): all six file columns
present decode to a `FileRow` (content hash copied from the version row);
all six NULL decode to no file; any other mixture is a column-decode
error. -/
def leftJoinFromCols (version : VersionRow) (c : RawFileCols) : Except Unit (Option FileRow) :=
  match c.target, c.path, c.compression, c.file_size, c.file_hash, c.discovered_at with
  | some t, some p, some cp, some fs, some fh, some d =>
    .ok (some { target := t, path := p, compression := cp, file_size := fs
                file_hash := fh, content_hash := version.content_hash
                discovered_at := d })
  | Option.none, Option.none, Option.none, Option.none, Option.none, Option.none =>
    .ok Option.none
  | _, _, _, _, _, _ => .error ()

/-- Modelled from the spec: `queries/get_by_content_hash.sql` is not in
src.  Spec §4.4/§9: `versions LEFT JOIN files` on `content_hash`, filtered
to the requested hash; a version with no files yields one row with NULL
file columns. -/
def leftJoinRows (s : CacheState) (hsh : String) : List (VersionRow × RawFileCols) :=
  (s.versions.filter (fun v => v.content_hash = hsh)).flatMap
    (fun v =>
      let fs := s.files.filter (fun f => f.content_hash = v.content_hash)
      if fs.isEmpty then [(v, noFileCols)]
      else fs.map (fun f => (v, fileColsOfRow f)))

/-- Modelled from the spec: `group_files_by_version` over optional files
is commented out in repo.rs (lines 56-65).  Groups decoded rows by
version hash, first-seen order, dropping absent file sides. -/
def insertGrouped (acc : List (Version × List FileP)) (v : Version) (f : Option FileP) :
    List (Version × List FileP) :=
  if acc.any (fun e => e.1.hash = v.hash) then
    acc.map (fun e => if e.1.hash = v.hash then (e.1, e.2 ++ f.toList) else e)
  else acc ++ [(v, f.toList)]

def groupFilesByVersion (rows : List (Option FileP × Version)) : List (Version × List FileP) :=
  rows.foldl (fun acc r => insertGrouped acc r.2 r.1) []

/-- `Repository::get_by_content_hash` (repo.rs lines 215-227): fetch the
left-join rows (decode errors surface as `Database`), return `none` when
the row set is empty, convert each row to an optional file and version,
group, and take the first group. -/
def Repository.getByContentHash (s : CacheState) (hsh : String) :
    Except CacheErr (Option (Version × List FileP)) :=
  match exceptMap
      (fun rc =>
        match leftJoinFromCols rc.1 rc.2 with
        | .error _ => Except.error CacheErr.database
        | .ok ofr => Except.ok (rc.1, ofr))
      (leftJoinRows s hsh) with
  | .error e => .error e
  | .ok decoded =>
    if decoded.isEmpty then .ok Option.none
    else
      match exceptMap
          (fun rc =>
            match rc.2 with
            | Option.none =>
              match Version.ofRow rc.1 with
              | .error e => Except.error e
              | .ok v => Except.ok ((Option.none : Option FileP), v)
            | some fr =>
              match FileP.ofRow fr with
              | .error e => Except.error e
              | .ok f =>
                match Version.ofRow rc.1 with
                | .error e => Except.error e
                | .ok v => Except.ok (some f, v))
          decoded with
      | .error e => .error e
      | .ok pairs => .ok (groupFilesByVersion pairs).head?

/-! ## Effectful model of the library pipelines (`crates/library`)

The scan and organize pipelines are embedded as computations in a state
monad over an explicit `World` (storage backend contents, cache tables,
optional trash backend), producing an `Except` result together with the
updated world and a log of the I/O operations performed, in order.  The
external collaborators (BLAKE3, the HTML extractor, the compression
codecs, the path template) are passed in as an `Ext` record of functions,
exactly as the pipelines consume them. -/

/-- One observable I/O operation.  `db*` are cache-database accesses
(`dbWrite` only when a mutation actually reaches the database — dry-run
short-circuits emit nothing); `be*` are storage-backend operations. -/
inductive Eff
  | dbRead
  | dbWrite
  | beExists (p : String)
  | beStat (p : String)
  | beRead (p : String)
  | beWrite (p : String)
  | beDelete (p : String)
  | beRename (src dst : String)
  | trashWrite (p : String)
  deriving DecidableEq, Repr

/-- The world a pipeline runs in: the file contents of the primary backend
(path-addressed bytes), the cache tables, the optional trash backend, and
the current wall-clock time (used only for trash file names). -/
structure World where
  backendName : String
  backend : List (String × List Nat)
  cache : CacheState
  trash : Option (List (String × List Nat))
  now : Int
  deriving DecidableEq, Repr

/-- The pipeline monad: a world transformer with an error and an ordered
effect log. -/
def M (ε α : Type) : Type := World → Except ε α × World × List Eff

def M.pure {ε α : Type} (a : α) : M ε α := fun w => (.ok a, w, [])

def M.bind {ε α β : Type} (x : M ε α) (f : α → M ε β) : M ε β := fun w =>
  match x w with
  | (.ok a, w2, e1) =>
    match f a w2 with
    | (r, w3, e2) => (r, w3, e1 ++ e2)
  | (.error e, w2, e1) => (.error e, w2, e1)

instance {ε : Type} : Monad (M ε) where
  pure := M.pure
  bind := M.bind

def M.fail {ε α : Type} (e : ε) : M ε α := fun w => (.error e, w, [])

def M.getWorld {ε : Type} : M ε World := fun w => (.ok w, w, [])

/-- Lift a collaborator result, translating its error to the error
kind of the caller (the Rust `.or_raise` combinator). -/
def M.liftExcept {ε α : Type} (e : ε) (x : Except Unit α) : M ε α := fun w =>
  match x with
  | .ok a => (.ok a, w, [])
  | .error _ => (.error e, w, [])

/-- Run a sub-computation and reify its outcome (a Rust `match` on a
fallible call): effects performed before a failure
persist. -/
def M.attempt {ε ε2 α : Type} (x : M ε α) : M ε2 (Except ε α) := fun w =>
  match x w with
  | (.ok a, w2, effs) => (.ok (.ok a), w2, effs)
  | (.error e, w2, effs) => (.ok (.error e), w2, effs)

/-- Association-list store helpers for the backend model. -/
def lookupBackend (w : World) (p : String) : Option (List Nat) :=
  (w.backend.find? (fun kv => kv.1 = p)).map (fun kv => kv.2)

def upsertAssoc (l : List (String × List Nat)) (k : String) (v : List Nat) :
    List (String × List Nat) :=
  if l.any (fun kv => kv.1 = k) then l.map (fun kv => if kv.1 = k then (k, v) else kv)
  else l ++ [(k, v)]

/-- `backend.exists(path)`. -/
def backendExistsOp {ε : Type} (p : String) : M ε Bool := fun w =>
  (.ok (lookupBackend w p).isSome, w, [.beExists p])

/-- `backend.read(path)`: `NotFound` (surfaced as the storage error
of the caller) if absent. -/
def backendReadOp {ε : Type} (e : ε) (p : String) : M ε (List Nat) := fun w =>
  match lookupBackend w p with
  | some b => (.ok b, w, [.beRead p])
  | Option.none => (.error e, w, [.beRead p])

/-- `backend.stat(path)`: `none` models the `NotFound` error (the only
storage error the model backend produces), which is exactly the case the
organize pipeline distinguishes. -/
def backendStatOp {ε : Type} (ext : String → Compression) (p : String) :
    M ε (Option FileMeta) := fun w =>
  match lookupBackend w p with
  | some b =>
    (.ok (some { target := w.backendName, path := p, compression := ext p
                 size := b.length, discovered_at := w.now }), w, [.beStat p])
  | Option.none => (.ok Option.none, w, [.beStat p])

/-- `backend.write(path, bytes)`: overwrite or create. -/
def backendWriteOp {ε : Type} (p : String) (b : List Nat) : M ε Unit := fun w =>
  (.ok (), { w with backend := upsertAssoc w.backend p b }, [.beWrite p])

/-- `backend.delete(path)`: `NotFound` if absent. -/
def backendDeleteOp {ε : Type} (e : ε) (p : String) : M ε Unit := fun w =>
  match lookupBackend w p with
  | some _ =>
    (.ok (), { w with backend := w.backend.filter (fun kv => kv.1 ≠ p) }, [.beDelete p])
  | Option.none => (.error e, w, [.beDelete p])

/-- `backend.rename(from, to)`: destination overwritten. -/
def backendRenameOp {ε : Type} (e : ε) (src dst : String) : M ε Unit := fun w =>
  match lookupBackend w src with
  | some b =>
    (.ok (), { w with backend := upsertAssoc (w.backend.filter (fun kv => kv.1 ≠ src)) dst b },
      [.beRename src dst])
  | Option.none => (.error e, w, [.beRename src dst])

/-- `trash.write(name, bytes)` on the optional trash backend. -/
def trashWriteOp {ε : Type} (p : String) (b : List Nat) : M ε Unit := fun w =>
  (.ok (), { w with trash := w.trash.map (fun t => upsertAssoc t p b) }, [.trashWrite p])

/-- `cache.get_by_target_path`, with the repository error translated to
the error kind of the caller. -/
def cacheGetOp {ε : Type} (e : ε) (t p : String) : M ε (Option (FileP × Version)) := fun w =>
  match Repository.getByTargetPath w.cache t p with
  | .error _ => (.error e, w, [.dbRead])
  | .ok r => (.ok r, w, [.dbRead])

/-- `cache.exists(target, path, file_hash)`. -/
def cacheExistsOp {ε : Type} (e : ε) (t p hsh : String) : M ε ExistenceResult := fun w =>
  match Repository.existsProbe w.cache t p hsh with
  | .error _ => (.error e, w, [.dbRead])
  | .ok r => (.ok r, w, [.dbRead])

/-- `cache.upsert(file, version)`: on the error paths nothing has touched
the database (constraint and conversions precede the transaction). -/
def cacheUpsertOp {ε : Type} (e : ε) (dryRun : Bool) (f : FileP) (v : Version) :
    M ε Unit := fun w =>
  match Repository.upsert dryRun w.cache f v with
  | (.error _, s) => (.error e, { w with cache := s }, [])
  | (.ok _, s) => (.ok (), { w with cache := s }, if dryRun then [] else [.dbWrite])

/-- `cache.delete_by_target_path(target, path)` (never fails in the
model). -/
def cacheDeleteOp {ε : Type} (dryRun : Bool) (t p : String) : M ε Unit := fun w =>
  (.ok (), { w with cache := Repository.deleteByTargetPath dryRun w.cache t p },
    if dryRun then [] else [.dbWrite])

/-- `cache.update_target_path(target, old, new)` (organize ignores its
result). -/
def cacheUpdatePathOp {ε : Type} (dryRun : Bool) (t oldP newP : String) : M ε Unit := fun w =>
  (.ok (), { w with cache := Repository.updateTargetPath dryRun w.cache t oldP newP },
    if dryRun then [] else [.dbWrite])

/-- `ErrorKind` of the scan module (`scan/error.rs`). -/
inductive ScanErr
  | storage
  | cache
  | compression
  | extract
  | scanFailed
  deriving DecidableEq, Repr

/-- `ErrorKind` of the organize module (`organize/error.rs`).  `outOfFuel`
is a model artifact: the embedding bounds the recursion with explicit
fuel, and every theorem supplies enough fuel that it is never reached. -/
inductive OrgErr
  | storage
  | cache
  | template
  | compression
  | scanWrap
  | conflict
  | outOfFuel
  deriving DecidableEq, Repr

/-- The external collaborators, as consumed by the pipelines. -/
structure Ext where
  hashBytes : List Nat → String
  decompress : Compression → List Nat → Except Unit (List Nat)
  extractDoc : List Nat → Except Unit Version
  templateGen : Version → Compression → Except Unit String
  detectCompression : String → Compression
  compress : Compression → List Nat → List Nat

/-- `ScanEffort` (scan/file.rs lines 14-25). -/
inductive ScanEffort
  | cached
  | recalculated
  | processed
  deriving DecidableEq, Repr

/-- `Scan` (scan/file.rs lines 32-36). -/
structure Scan where
  file : FileP
  version : Version
  effort : ScanEffort
  deriving DecidableEq, Repr

/-- The decompress-extract-upsert tail of `scan_file_inner` (scan/file.rs
lines 99-103), shared by the Recalculated and Processed branches. -/
def scanFinish (ext : Ext) (dryRun : Bool) (file : FileMeta) (fhash : String)
    (bytes : List Nat) (effort : ScanEffort) : M ScanErr Scan := do
  let content ← M.liftExcept .compression (ext.decompress file.compression bytes)
  let version ← M.liftExcept .extract (ext.extractDoc content)
  let fp := file.withHashes fhash version.hash
  cacheUpsertOp .cache dryRun fp version
  M.pure { file := fp, version := version, effort := effort }

/-- `scan_file_inner` after the path+size cache miss (scan/file.rs lines
74-103): read the bytes, hash, probe the cache, and dispatch on the four
existence outcomes. -/
def scanRest (ext : Ext) (dryRun : Bool) (file : FileMeta) : M ScanErr Scan := do
  let w ← M.getWorld
  let bytes ← backendReadOp .storage file.path
  let fhash := ext.hashBytes bytes
  let exres ← cacheExistsOp .cache w.backendName file.path fhash
  match exres with
  | .exactMatch _ _ =>
    cacheDeleteOp dryRun w.backendName file.path
    scanFinish ext dryRun file fhash bytes .recalculated
  | .hashMismatch _ _ =>
    cacheDeleteOp dryRun w.backendName file.path
    scanFinish ext dryRun file fhash bytes .recalculated
  | .locatedElsewhere other version =>
    let fp := file.withHashes fhash other.content_hash
    cacheUpsertOp .cache dryRun fp version
    M.pure { file := fp, version := version, effort := .cached }
  | .notFound => scanFinish ext dryRun file fhash bytes .processed

/-- `scan_file_inner` (scan/file.rs lines 61-104).  The hashes of the input
file are stripped on entry, so the input is its `FileMeta`. -/
def scanFileInner (ext : Ext) (dryRun : Bool) (file : FileMeta) : M ScanErr Scan := do
  let w ← M.getWorld
  let existing ← cacheGetOp .cache w.backendName file.path
  match existing with
  | some (cf, version) =>
    if file.size = cf.meta.size then
      M.pure { file := cf, version := version, effort := .cached }
    else scanRest ext dryRun file
  | Option.none => scanRest ext dryRun file

/-- `Action` (organize/file.rs lines 22-30). -/
inductive Action
  | renamed (p : String)
  | alreadyCorrect (p : String)
  | cleanedUp (p : String)
  deriving DecidableEq, Repr

/-- `MAX_CONFLICT_DEPTH` (organize/conflict.rs line 16). -/
def maxConflictDepth : Nat := 5

/-- `convert` (organize/file.rs lines 145-153): decompress with the
source format, recompress with the target format. -/
def convertData (ext : Ext) (data : List Nat) (src tgt : Compression) :
    Except Unit (List Nat) :=
  (ext.decompress src data).map (ext.compress tgt)

/-- `handle_conflict` (organize/conflict.rs lines 37-99), parameterized
over the recursive `organize_file_inner` call it makes at step 4. -/
def handleConflictGen (ext : Ext) (dryRun : Bool)
    (recurse : FileMeta → List String → M OrgErr Action)
    (incoming : FileP) (existing : FileMeta) (depth : List String) :
    M OrgErr (Option Action) := do
  let existingPath := existing.path
  let got ← cacheGetOp OrgErr.cache incoming.meta.target existing.path
  let step ← (match got with
    | some (cached, _) => M.pure (Sum.inr cached)
    | Option.none => do
      let sr ← M.attempt (scanFileInner ext dryRun existing)
      match sr with
      | .ok scan => M.pure (Sum.inr scan.file)
      | .error ScanErr.extract => do
        backendDeleteOp OrgErr.storage existingPath
        M.pure (Sum.inl (Option.none : Option Action))
      | .error _ => M.fail OrgErr.scanWrap :
    M OrgErr (Sum (Option Action) FileP))
  match step with
  | Sum.inl r => M.pure r
  | Sum.inr existingP => do
    if incoming.content_hash = existingP.content_hash then do
      backendDeleteOp OrgErr.storage incoming.meta.path
      M.pure (some (Action.cleanedUp incoming.meta.path))
    else if depth.length > maxConflictDepth ∨ existingP.meta.path ∈ depth then
      M.fail OrgErr.conflict
    else do
      let depth2 := depth ++ [existingP.meta.path]
      let w ← M.getWorld
      let act ← recurse existingP.meta depth2
      match act with
      | Action.alreadyCorrect _ => do
        (match w.trash with
          | some _ => do
            let trashName := incoming.file_hash ++ "-" ++ toString w.now ++ ".html"
              ++ incoming.meta.compression.extension
            let contents ← backendReadOp OrgErr.storage incoming.meta.path
            trashWriteOp trashName contents
            backendDeleteOp OrgErr.storage incoming.meta.path
          | Option.none => M.pure ())
        M.fail OrgErr.conflict
      | _ => M.pure Option.none

/-- `organize_file_inner` (organize/file.rs lines 63-142), with explicit
fuel driving the mutual recursion through `handle_conflict`; the depth
guard makes the real recursion terminate long before any reasonable fuel
runs out. -/
def organizeFileInner (ext : Ext) (dryRun : Bool) (ctxComp : Option Compression) :
    Nat → FileMeta → List String → M OrgErr Action
  | 0, _, _ => M.fail OrgErr.outOfFuel
  | Nat.succ n, file, depth => do
    let w ← M.getWorld
    if file.target ≠ w.backendName then M.fail OrgErr.storage
    else do
      let ex ← backendExistsOp file.path
      if ex = false then do
        cacheDeleteOp dryRun file.target file.path
        M.pure (Action.cleanedUp file.path)
      else do
        let filePath := file.path
        let got ← cacheGetOp OrgErr.cache file.target file.path
        let step ← (match got with
          | some r => M.pure (Sum.inr r)
          | Option.none => do
            let sr ← M.attempt (scanFileInner ext dryRun file)
            match sr with
            | .ok scan => M.pure (Sum.inr (scan.file, scan.version))
            | .error ScanErr.extract => do
              backendDeleteOp OrgErr.storage filePath
              M.pure (Sum.inl (Action.cleanedUp filePath))
            | .error _ => M.fail OrgErr.scanWrap :
          M OrgErr (Sum Action (FileP × Version)))
        match step with
        | Sum.inl a => M.pure a
        | Sum.inr (fileP, version) => do
          let compressionSource := fileP.meta.compression
          let compressionTarget := ctxComp.getD compressionSource
          let correct ← M.liftExcept OrgErr.template (ext.templateGen version compressionTarget)
          if fileP.meta.path = correct then M.pure (Action.alreadyCorrect fileP.meta.path)
          else do
            let st ← backendStatOp ext.detectCompression correct
            let conflictRes ← (match st with
              | Option.none => M.pure (Option.none : Option Action)
              | some existing =>
                handleConflictGen ext dryRun
                  (organizeFileInner ext dryRun ctxComp n) fileP existing depth)
            match conflictRes with
            | some a => M.pure a
            | Option.none => do
              cacheDeleteOp dryRun fileP.meta.target fileP.meta.path
              if compressionSource = compressionTarget then
                backendRenameOp OrgErr.storage fileP.meta.path correct
              else do
                let data ← backendReadOp OrgErr.storage fileP.meta.path
                let conv ← M.liftExcept OrgErr.compression
                  (convertData ext data compressionSource compressionTarget)
                backendWriteOp correct conv
                backendDeleteOp OrgErr.storage fileP.meta.path
              cacheUpdatePathOp dryRun fileP.meta.target fileP.meta.path correct
              M.pure (Action.renamed correct)

/-- `handle_conflict` proper: the general form applied to the recursive
organize call at the given fuel. -/
def handleConflict (ext : Ext) (dryRun : Bool) (ctxComp : Option Compression)
    (fuel : Nat) (incoming : FileP) (existing : FileMeta) (depth : List String) :
    M OrgErr (Option Action) :=
  handleConflictGen ext dryRun (organizeFileInner ext dryRun ctxComp fuel)
    incoming existing depth

/-! ## Streaming scan event order (`crates/library/src/scan/stream.rs`)

`scan_inner` is a `tokio::select!` loop with a biased discovery arm, an
in-flight `FuturesUnordered` set bounded by `MAX_PROCESS_CONCURRENCY`, an
overflow queue, and an `else` refill/exit arm.  It is embedded as a
labelled transition system over the loop state; the timing freedom of the
environment (whether the backend list stream is ready when the select is
polled, and which in-flight scan completes first) appears as
nondeterminism: the processing arm may fire whenever the in-flight set is
non-empty, because the biased discovery arm only wins when its stream is
ready, which the scheduler does not control. -/

/-- `MAX_PROCESS_CONCURRENCY` (library/src/lib.rs line 13 and
scan/stream.rs line 14). -/
def maxProcessConcurrency : Nat := 100

/-- The `ScanEvent` alphabet (scan/stream.rs lines 16-22), plus `errItem`
for the `Err` items the stream yields on listing or scan failures. -/
inductive SEvent
  | started
  | fileDiscovered (p : String)
  | discoveryComplete (n : Nat)
  | scanned (p : String)
  | errItem
  | complete
  deriving DecidableEq, Repr

/-- One element of the backend list stream: a discovered file (whose
eventual scan succeeds iff `ok`) or an in-stream listing error. -/
inductive ListItem
  | file (p : String) (ok : Bool)
  | listErr
  deriving DecidableEq, Repr

/-- The item yielded when an in-flight scan completes. -/
def taskEvent (p : String) (ok : Bool) : SEvent :=
  if ok then .scanned p else .errItem

/-- `ScanRun dc d stream pending inflight evs`: from the loop state
(discovery-complete flag, discovered count, remaining list stream, the
`not_processing_yet` overflow queue, the `processing` in-flight set), the
loop can emit exactly the event sequence `evs` before terminating.  Each
constructor is one iteration of the select loop (scan/stream.rs lines
108-163). -/
inductive ScanRun : Bool → Nat → List ListItem → List (String × Bool) →
    List (String × Bool) → List SEvent → Prop
  | done (d : Nat) :
      ScanRun true d [] [] [] [SEvent.complete]
  | refill (d : Nat) (pending : List (String × Bool)) (evs : List SEvent)
      (hne : pending ≠ [])
      (h : ScanRun true d [] (pending.drop (min maxProcessConcurrency pending.length))
        (pending.take (min maxProcessConcurrency pending.length)) evs) :
      ScanRun true d [] pending [] evs
  | discoverPush (d : Nat) (p : String) (ok : Bool) (rest : List ListItem)
      (pending inflight : List (String × Bool)) (evs : List SEvent)
      (hlt : inflight.length < maxProcessConcurrency)
      (h : ScanRun false (d + 1) rest pending (inflight ++ [(p, ok)]) evs) :
      ScanRun false d (.file p ok :: rest) pending inflight (.fileDiscovered p :: evs)
  | discoverQueue (d : Nat) (p : String) (ok : Bool) (rest : List ListItem)
      (pending inflight : List (String × Bool)) (evs : List SEvent)
      (hge : ¬inflight.length < maxProcessConcurrency)
      (h : ScanRun false (d + 1) rest (pending ++ [(p, ok)]) inflight evs) :
      ScanRun false d (.file p ok :: rest) pending inflight (.fileDiscovered p :: evs)
  | discoverErr (d : Nat) (rest : List ListItem)
      (pending inflight : List (String × Bool)) (evs : List SEvent)
      (h : ScanRun false d rest pending inflight evs) :
      ScanRun false d (.listErr :: rest) pending inflight (.errItem :: evs)
  | discoverDone (d : Nat) (pending inflight : List (String × Bool)) (evs : List SEvent)
      (h : ScanRun true d [] pending inflight evs) :
      ScanRun false d [] pending inflight (.discoveryComplete d :: evs)
  | processPromote (dc : Bool) (d : Nat) (stream : List ListItem)
      (l1 l2 : List (String × Bool)) (p : String) (ok : Bool)
      (ps : List (String × Bool)) (q : String × Bool) (evs : List SEvent)
      (h : ScanRun dc d stream ps ((l1 ++ l2) ++ [q]) evs) :
      ScanRun dc d stream (ps ++ [q]) (l1 ++ (p, ok) :: l2) (taskEvent p ok :: evs)
  | processLast (dc : Bool) (d : Nat) (stream : List ListItem)
      (l1 l2 : List (String × Bool)) (p : String) (ok : Bool) (evs : List SEvent)
      (h : ScanRun dc d stream [] (l1 ++ l2) evs) :
      ScanRun dc d stream [] (l1 ++ (p, ok) :: l2) (taskEvent p ok :: evs)

/-- The event sequences `scan_inner` can emit for a given backend list
stream: `Started` (scan/stream.rs line 44), then a run of the select loop
from the initial state. -/
def ScanTrace (stream : List ListItem) (evs : List SEvent) : Prop :=
  ∃ evs2, evs = SEvent.started :: evs2 ∧ ScanRun false 0 stream [] [] evs2

/-- The strict order the claim asserts: `Started`, zero-or-more
`FileDiscovered`, one `DiscoveryComplete`, zero-or-more `Scanned`, one
`Complete`. -/
def scannedPhase : List SEvent → Bool
  | .scanned _ :: rest => scannedPhase rest
  | [.complete] => true
  | _ => false

def discoveryPhase : List SEvent → Bool
  | .fileDiscovered _ :: rest => discoveryPhase rest
  | .discoveryComplete _ :: rest => scannedPhase rest
  | _ => false

def claimedStrictOrder : List SEvent → Bool
  | .started :: rest => discoveryPhase rest
  | _ => false

/-- Events legal before `DiscoveryComplete`: anything except `Started`,
`DiscoveryComplete` and `Complete`. -/
def preOkB : SEvent → Bool
  | .started => false
  | .discoveryComplete _ => false
  | .complete => false
  | _ => true

/-- Events legal after `DiscoveryComplete`: additionally no further
`FileDiscovered`. -/
def postOkB : SEvent → Bool
  | .started => false
  | .discoveryComplete _ => false
  | .complete => false
  | .fileDiscovered _ => false
  | _ => true

/-! ## Concrete inputs used by the witnesses and counterexamples -/

/-- Concrete versions exhibiting the non-transitivity of `versionCmp`:
`cexA` looks like a deletion notice next to the much larger `cexB`, while
`cexC` (5 chapters, newer than `cexB` but older than `cexA`) triggers
neither deletion check against either. -/
def cexMeta (written : Nat) (lm : Int) : Metadata :=
  { work_id := 1, title := "w", authors := [], fandoms := [], series := []
    chapters := { written := written, total := Option.none }, words := 0
    rating := Option.none, warnings := [], tags := [], summary := Option.none
    language := "en", published := 0, last_modified := lm }

def cexA : Version :=
  { hash := "a", length := 100, crc32 := 0, metadata := cexMeta 4 100, extracted_at := 0 }

def cexB : Version :=
  { hash := "b", length := 1000, crc32 := 0, metadata := cexMeta 10 10, extracted_at := 0 }

def cexC : Version :=
  { hash := "c", length := 100, crc32 := 0, metadata := cexMeta 5 20, extracted_at := 0 }

/-- Referential integrity of the cache: every file row references a
version row whose primary key (`content_hash`) equals the file
`content_hash` — i.e. every persisted (file, version) pair satisfies
`file.content_hash == version.hash`. -/
def CacheIntegrity (s : CacheState) : Prop :=
  ∀ f ∈ s.files, ∃ v ∈ s.versions, v.content_hash = f.content_hash

/-- Concrete inputs for the repository witnesses. -/
def wMeta : FileMeta :=
  { target := "local", path := "a/b.html.bz2", compression := .bzip2
    size := 10, discovered_at := 0 }

def wFile : FileP := { meta := wMeta, file_hash := "fh", content_hash := "ch" }

def wVersionOf (hash : String) : Version :=
  { hash := hash, length := 5, crc32 := 7, metadata := cexMeta 1 0, extracted_at := 0 }

/-- Concrete state for the C2 witness: one file at ("local",
"a/b.html.bz2") with file hash "fh" and content hash "ch", plus its
version row. -/
def wVersionRow : VersionRow :=
  { content_hash := "ch", content_crc32 := 7, work_id := 1, content_size := 5
    title := "w", authors := [], fandoms := [], series := []
    chapters_written := 1, chapters_total := Option.none, words := 3
    summary := Option.none, rating := Option.none, warnings := [], lang := "en"
    published_on := 0, last_modified := 0, tags := [], extracted_at := 0 }

def wFileRow : FileRow :=
  { target := "local", path := "a/b.html.bz2", compression := "bzip2"
    file_size := 10, file_hash := "fh", content_hash := "ch", discovered_at := 0 }

def wCache : CacheState := { files := [wFileRow], versions := [wVersionRow] }

/-- The model `Version` decoded from `wVersionRow`. -/
def wVer : Version :=
  { hash := "ch", length := 5, crc32 := 7
    metadata := { work_id := 1, title := "w", authors := [], fandoms := []
                  series := [], chapters := { written := 1, total := Option.none }
                  words := 3, rating := Option.none, warnings := [], tags := []
                  summary := Option.none, language := "en", published := 0
                  last_modified := 0 }
    extracted_at := 0 }

/-- An orphan version: the version row is present, no file references it. -/
def wOrphanCache : CacheState := { files := [], versions := [wVersionRow] }

/-- Concrete world for the scan witnesses: the cached file from `wCache`
sits on the backend and in the cache. -/
def wWorld : World :=
  { backendName := "local", backend := [("a/b.html.bz2", [1, 2])]
    cache := wCache, trash := Option.none, now := 0 }

def wExt : Ext :=
  { hashBytes := fun _ => "fh", decompress := fun _ b => .ok b
    extractDoc := fun _ => .error (), templateGen := fun _ _ => .ok "t"
    detectCompression := fun _ => .bzip2, compress := fun _ b => b }

def wFileMeta : FileMeta :=
  { target := "local", path := "a/b.html.bz2", compression := .bzip2
    size := 10, discovered_at := 5 }

/-- The cached pair decoded from `wFileRow`. -/
def wFileP2 : FileP :=
  { meta := { target := "local", path := "a/b.html.bz2", compression := .bzip2
              size := 10, discovered_at := 0 }
    file_hash := "fh", content_hash := "ch" }

/-- Concrete inputs for the C9 theorems: the cached file of `wWorld` with a
template that renders its current path. -/
def c9Ext : Ext :=
  { wExt with templateGen := fun _ _ => .ok "a/b.html.bz2" }

/-- Concrete state for the C5 counterexample: an incoming file at `pI`
(content `chI`) conflicts with a cached occupant at `pE` (content `chE`)
whose own correct location `pF` is free. -/
def c5VersionRowE : VersionRow := { wVersionRow with content_hash := "chE" }

def c5FileRowE : FileRow :=
  { target := "local", path := "pE", compression := "bzip2", file_size := 4
    file_hash := "fhE", content_hash := "chE", discovered_at := 0 }

def c5World : World :=
  { backendName := "local", backend := [("pE", [1, 2, 3, 4]), ("pI", [9])]
    cache := { files := [c5FileRowE], versions := [c5VersionRowE] }
    trash := Option.none, now := 0 }

def c5Incoming : FileP :=
  { meta := { target := "local", path := "pI", compression := .bzip2
              size := 1, discovered_at := 0 }
    file_hash := "fhI", content_hash := "chI" }

def c5Existing : FileMeta :=
  { target := "local", path := "pE", compression := .bzip2, size := 4, discovered_at := 0 }

def c5Ext : Ext :=
  { wExt with templateGen := fun v _ => .ok (if v.hash = "chE" then "pF" else "pX") }

/-- The single-file stream used by the C7 theorems. -/
def c7Stream : List ListItem := [.file "a" true]

/-- A legal trace in which the scan of `a` completes while the backend
list stream is still pending, so `Scanned` precedes `DiscoveryComplete`. -/
def c7BadTrace : List SEvent :=
  [.started, .fileDiscovered "a", .scanned "a", .discoveryComplete 1, .complete]

/-- The well-ordered trace of the same stream (scan completes after
discovery). -/
def c7GoodTrace : List SEvent :=
  [.started, .fileDiscovered "a", .discoveryComplete 1, .scanned "a", .complete]

/-! ## Theorems for claim C7 (streaming scan event order) -/

theorem postOk_taskEvent (p : String) (ok : Bool) : postOkB (taskEvent p ok) = true := by
  cases ok <;> rfl

theorem preOk_taskEvent (p : String) (ok : Bool) : preOkB (taskEvent p ok) = true := by
  cases ok <;> rfl

/-- Shape of every complete loop run: with discovery already complete the
remaining events are scanned/error items closed by one `Complete`; before
that there is a (scan-interleaved) discovery phase, exactly one
`DiscoveryComplete`, no further `FileDiscovered` after it, and one final
`Complete`. -/
theorem scanRun_shape (dc : Bool) (d : Nat) (stream : List ListItem)
    (pending inflight : List (String × Bool)) (evs : List SEvent)
    (h : ScanRun dc d stream pending inflight evs) :
    (dc = true → ∃ mid, evs = mid ++ [SEvent.complete] ∧ mid.all postOkB = true) ∧
    (dc = false → ∃ pre d2 mid,
      evs = pre ++ SEvent.discoveryComplete d2 :: mid ++ [SEvent.complete] ∧
      pre.all preOkB = true ∧ mid.all postOkB = true) := by
  induction h with
  | done d => exact ⟨fun _ => ⟨[], rfl, rfl⟩, fun hf => by simp at hf⟩
  | refill d pending evs hne h ih => exact ⟨fun _ => ih.1 rfl, fun hf => by simp at hf⟩
  | discoverPush d p ok rest pending inflight evs hlt h ih =>
    refine ⟨fun hf => by simp at hf, fun _ => ?_⟩
    obtain ⟨pre, d2, mid, heq, hpre, hmid⟩ := ih.2 rfl
    exact ⟨.fileDiscovered p :: pre, d2, mid, by rw [heq]; rfl, by simpa [preOkB] using hpre,
      hmid⟩
  | discoverQueue d p ok rest pending inflight evs hge h ih =>
    refine ⟨fun hf => by simp at hf, fun _ => ?_⟩
    obtain ⟨pre, d2, mid, heq, hpre, hmid⟩ := ih.2 rfl
    exact ⟨.fileDiscovered p :: pre, d2, mid, by rw [heq]; rfl, by simpa [preOkB] using hpre,
      hmid⟩
  | discoverErr d rest pending inflight evs h ih =>
    refine ⟨fun hf => by simp at hf, fun _ => ?_⟩
    obtain ⟨pre, d2, mid, heq, hpre, hmid⟩ := ih.2 rfl
    exact ⟨.errItem :: pre, d2, mid, by rw [heq]; rfl, by simpa [preOkB] using hpre, hmid⟩
  | discoverDone d pending inflight evs h ih =>
    refine ⟨fun hf => by simp at hf, fun _ => ?_⟩
    obtain ⟨mid, heq, hmid⟩ := ih.1 rfl
    exact ⟨[], d, mid, by rw [heq]; rfl, rfl, hmid⟩
  | processPromote dc d stream l1 l2 p ok ps q evs h ih =>
    constructor
    · intro hdc
      obtain ⟨mid, heq, hmid⟩ := ih.1 hdc
      exact ⟨taskEvent p ok :: mid, by rw [heq]; rfl, by simp [hmid, postOk_taskEvent]⟩
    · intro hdc
      obtain ⟨pre, d2, mid, heq, hpre, hmid⟩ := ih.2 hdc
      exact ⟨taskEvent p ok :: pre, d2, mid, by rw [heq]; rfl,
        by simp [hpre, preOk_taskEvent], hmid⟩
  | processLast dc d stream l1 l2 p ok evs h ih =>
    constructor
    · intro hdc
      obtain ⟨mid, heq, hmid⟩ := ih.1 hdc
      exact ⟨taskEvent p ok :: mid, by rw [heq]; rfl, by simp [hmid, postOk_taskEvent]⟩
    · intro hdc
      obtain ⟨pre, d2, mid, heq, hpre, hmid⟩ := ih.2 hdc
      exact ⟨taskEvent p ok :: pre, d2, mid, by rw [heq]; rfl,
        by simp [hpre, preOk_taskEvent], hmid⟩

/-- C7 counterexample: the streaming scan can emit a `Scanned` event
*before* `DiscoveryComplete` — discovery and processing run concurrently
and the biased select only prefers discovery when the backend stream is
ready — so the claimed strict order `Started, FileDiscovered*,
DiscoveryComplete, Scanned*, Complete` is violated. -/
theorem scan_stream_scanned_before_discovery_complete :
    ScanTrace c7Stream c7BadTrace ∧ claimedStrictOrder c7BadTrace = false := by
  constructor
  · refine ⟨_, rfl, ?_⟩
    have s1 : ScanRun true 1 [] [] [] [SEvent.complete] := ScanRun.done 1
    have s2 : ScanRun false 1 [] [] []
        [SEvent.discoveryComplete 1, SEvent.complete] :=
      ScanRun.discoverDone 1 [] [] _ s1
    have s3 : ScanRun false 1 [] [] [("a", true)]
        [SEvent.scanned "a", SEvent.discoveryComplete 1, SEvent.complete] := by
      have := ScanRun.processLast false 1 [] [] [] "a" true _ s2
      simpa [taskEvent] using this
    exact ScanRun.discoverPush 0 "a" true [] [] [] _ (by decide) s3
  · decide

/-- C7 amended: every event sequence the streaming scan can emit starts
with `Started`, contains exactly one `DiscoveryComplete`, has every
`FileDiscovered` before the `DiscoveryComplete`, and ends with exactly one
`Complete`; `Scanned` (and error) items may appear on either side of
`DiscoveryComplete`. -/
theorem scan_stream_event_order (stream : List ListItem) (evs : List SEvent)
    (h : ScanTrace stream evs) :
    ∃ pre d mid, evs = SEvent.started :: pre
        ++ SEvent.discoveryComplete d :: mid ++ [SEvent.complete]
      ∧ pre.all preOkB = true ∧ mid.all postOkB = true := by
  obtain ⟨evs2, heq, hrun⟩ := h
  obtain ⟨pre, d2, mid, h2, hpre, hmid⟩ :=
    (scanRun_shape false 0 stream [] [] evs2 hrun).2 rfl
  exact ⟨pre, d2, mid, by rw [heq, h2]; rfl, hpre, hmid⟩

/-- Witness for `scan_stream_event_order` on the well-ordered concrete
trace. -/
theorem scan_stream_event_order_witness :
    ∃ pre d mid, c7GoodTrace = SEvent.started :: pre
        ++ SEvent.discoveryComplete d :: mid ++ [SEvent.complete]
      ∧ pre.all preOkB = true ∧ mid.all postOkB = true := by
  refine scan_stream_event_order c7Stream c7GoodTrace ⟨_, rfl, ?_⟩
  have t1 : ScanRun true 1 [] [] [] [SEvent.complete] := ScanRun.done 1
  have t2 : ScanRun true 1 [] [] [("a", true)]
      [SEvent.scanned "a", SEvent.complete] := by
    have := ScanRun.processLast true 1 [] [] [] "a" true _ t1
    simpa [taskEvent] using this
  have t3 : ScanRun false 1 [] [] [("a", true)]
      [SEvent.discoveryComplete 1, SEvent.scanned "a", SEvent.complete] :=
    ScanRun.discoverDone 1 [] [("a", true)] _ t2
  exact ScanRun.discoverPush 0 "a" true [] [] [] _ (by decide) t3

/-! ## Theorems for claim C6 (version ordering) -/

/-- The deletion-notice relation can never hold in both directions:
`2a < b` and `2b < a` are jointly unsatisfiable over `Nat`. -/
theorem not_both_deletion_notice (a b : Version) :
    ¬(appearsToBeDeletionNotice a b = true ∧ appearsToBeDeletionNotice b a = true) := by
  rintro ⟨h1, h2⟩
  simp only [appearsToBeDeletionNotice, Bool.and_eq_true, decide_eq_true_eq] at h1 h2
  omega

/-- `metadataCmp` is antisymmetric. -/
theorem metadataCmp_lt_iff_gt (a b : Metadata) :
    metadataCmp a b = .lt ↔ metadataCmp b a = .gt := by
  unfold metadataCmp intCmp natCmp
  split_ifs <;> simp_all <;> omega

/-- C6 counterexample: the comparison on Versions is *not* transitive.
For the three versions above — all sharing `work_id = 1` —
`cmp(A,B) = Less` (A appears to be a deletion notice of B) and
`cmp(B,C) = Less` (by `last_modified`), but `cmp(A,C) = Greater`
(the `last_modified` of A wins and no deletion check fires). -/
theorem versionCmp_not_transitive :
    cexA.metadata.work_id = cexB.metadata.work_id ∧
    cexB.metadata.work_id = cexC.metadata.work_id ∧
    versionCmp cexA cexB = .lt ∧
    versionCmp cexB cexC = .lt ∧
    versionCmp cexA cexC = .gt := by
  refine ⟨rfl, rfl, ?_, ?_, ?_⟩ <;> decide

/-- C6 amended: the comparison is antisymmetric
(`cmp(A,B) = Less ↔ cmp(B,A) = Greater` for versions sharing a
`work_id`), but not transitive (see `versionCmp_not_transitive`). -/
theorem versionCmp_antisymm (a b : Version)
    (_hw : a.metadata.work_id = b.metadata.work_id) :
    versionCmp a b = .lt ↔ versionCmp b a = .gt := by
  unfold versionCmp
  cases h1 : appearsToBeDeletionNotice a b with
  | true =>
    cases h2 : appearsToBeDeletionNotice b a with
    | true => exact absurd ⟨h1, h2⟩ (not_both_deletion_notice a b)
    | false => simp
  | false =>
    cases h2 : appearsToBeDeletionNotice b a with
    | true => simp
    | false => simpa using metadataCmp_lt_iff_gt a.metadata b.metadata

/-- Witness for `versionCmp_antisymm` at concrete versions. -/
theorem versionCmp_antisymm_witness :
    cexB.metadata.work_id = cexC.metadata.work_id ∧
    (versionCmp cexB cexC = .lt ↔ versionCmp cexC cexB = .gt) :=
  ⟨by decide, versionCmp_antisymm cexB cexC (by decide)⟩

/-! ## Theorems for claim C3 (path validator and absolute paths) -/

/-- C3 counterexample: the absolute input `/etc/passwd` is *not*
rejected — `validate` silently drops the `RootDir` component and returns
the normalized relative path `etc/passwd`. -/
theorem validatePath_accepts_absolute :
    isAbsolutePath "/etc/passwd" = true ∧
    validatePath "/etc/passwd" = some ["etc", "passwd"] := by
  constructor
  · decide
  · decide

/-- C3 amended: a drive prefix anywhere in the component list is always
rejected, but an absolute path is not: a leading `RootDir` component is
skipped, so validation of an absolute path proceeds exactly as for the
corresponding relative path (and can return a normalized relative
path). -/
theorem validate_drive_rejected_root_skipped :
    (∀ cs : List PathComponent, PathComponent.windowsDrive ∈ cs →
      validateComponents cs = Option.none) ∧
    (∀ cs : List PathComponent,
      validateComponents (PathComponent.rootDir :: cs) = validateComponents cs) := by
  constructor
  · have go : ∀ (cs : List PathComponent) (acc : List String),
        PathComponent.windowsDrive ∈ cs → validateGo cs acc = Option.none := by
      intro cs
      induction cs with
      | nil => intro acc h; cases h
      | cons c cs ih =>
        intro acc h
        cases c with
        | rootDir => exact ih acc (by simpa using h)
        | curDir => exact ih acc (by simpa using h)
        | parentDir =>
          have hmem : PathComponent.windowsDrive ∈ cs := by simpa using h
          cases acc with
          | nil => rfl
          | cons a rest => exact ih rest hmem
        | windowsDrive => rfl
        | normal s =>
          have hmem : PathComponent.windowsDrive ∈ cs := by simpa using h
          simp only [validateGo]
          split
          · rfl
          · exact ih _ hmem
    exact fun cs h => go cs [] h
  · intro cs
    rfl

/-- Witness for `validate_drive_rejected_root_skipped`: a singleton drive
prefix is rejected. -/
theorem validate_drive_rejected_witness :
    PathComponent.windowsDrive ∈ [PathComponent.windowsDrive] ∧
    validateComponents [PathComponent.windowsDrive] = Option.none :=
  ⟨by decide, validate_drive_rejected_root_skipped.1 [PathComponent.windowsDrive] (by decide)⟩

/-! ## Theorems for claims C1 and C10 (upsert constraint) -/

theorem mem_upsertFileRow {fs : List FileRow} {f g : FileRow}
    (h : g ∈ upsertFileRow fs f) : g = f ∨ g ∈ fs := by
  unfold upsertFileRow at h
  split at h
  · rcases List.mem_map.mp h with ⟨x, hx, hxe⟩
    by_cases hc : x.target = f.target ∧ x.path = f.path
    · simp [hc.1, hc.2] at hxe
      exact Or.inl hxe.symm
    · rw [if_neg (by simpa using hc)] at hxe
      exact Or.inr (hxe ▸ hx)
  · rcases List.mem_append.mp h with h | h
    · exact Or.inr h
    · exact Or.inl (List.mem_singleton.mp h)

theorem upsertVersionRow_mono {vs : List VersionRow} {v w : VersionRow}
    (h : w ∈ vs) : w ∈ upsertVersionRow vs v := by
  unfold upsertVersionRow
  split
  · exact h
  · exact List.mem_append_left _ h

theorem exists_hash_upsertVersionRow (vs : List VersionRow) (v : VersionRow) :
    ∃ w ∈ upsertVersionRow vs v, w.content_hash = v.content_hash := by
  unfold upsertVersionRow
  split
  · next h =>
    rcases List.any_eq_true.mp h with ⟨w, hw, hdec⟩
    exact ⟨w, hw, of_decide_eq_true hdec⟩
  · exact ⟨v, List.mem_append_right _ (List.mem_singleton_self _), rfl⟩

theorem FileRow.ofFileP_content_hash {f : FileP} {r : FileRow}
    (h : FileRow.ofFileP f = .ok r) : r.content_hash = f.content_hash := by
  unfold FileRow.ofFileP at h
  split at h
  · cases h; rfl
  · cases h

theorem VersionRow.ofVersion_content_hash {v : Version} {r : VersionRow}
    (h : VersionRow.ofVersion v = .ok r) : r.content_hash = v.hash := by
  unfold VersionRow.ofVersion at h
  split at h <;> try cases h
  split at h <;> try cases h
  split at h <;> cases h
  rfl

/-- C1: an upsert of a pair whose `file.content_hash` differs from
`version.hash` fails with `Constraint` and leaves the database untouched
(for either value of the dry-run flag); and upsert preserves the
invariant that every persisted file row references a version row with the
same content hash, so every persisted (file, version) pair satisfies
`file.content_hash == version.hash`. -/
theorem upsert_constraint_enforced :
    (∀ (dryRun : Bool) (s : CacheState) (file : FileP) (version : Version),
        file.content_hash ≠ version.hash →
        Repository.upsert dryRun s file version = (.error .constraint, s)) ∧
    (∀ (dryRun : Bool) (s : CacheState) (file : FileP) (version : Version),
        CacheIntegrity s →
        CacheIntegrity (Repository.upsert dryRun s file version).2) := by
  constructor
  · intro dryRun s file version h
    unfold Repository.upsert
    rw [if_pos h]
  · intro dryRun s file version hint
    unfold Repository.upsert
    split
    · exact hint
    · next hch =>
      push_neg at hch
      split
      · exact hint
      · split
        · exact hint
        · next vrow hv =>
          split
          · exact hint
          · next frow hf =>
            intro g hg
            rcases mem_upsertFileRow hg with rfl | hmem
            · obtain ⟨w, hw, hwh⟩ := exists_hash_upsertVersionRow s.versions vrow
              refine ⟨w, hw, ?_⟩
              rw [hwh, VersionRow.ofVersion_content_hash hv,
                FileRow.ofFileP_content_hash hf, hch]
            · obtain ⟨w, hw, hwh⟩ := hint g hmem
              exact ⟨w, upsertVersionRow_mono hw, hwh⟩

/-- Witness for `upsert_constraint_enforced` at concrete inputs. -/
theorem upsert_constraint_enforced_witness :
    Repository.upsert false emptyCache wFile (wVersionOf "other")
        = (.error .constraint, emptyCache) ∧
    CacheIntegrity (Repository.upsert false emptyCache wFile (wVersionOf "ch")).2 :=
  ⟨upsert_constraint_enforced.1 false emptyCache wFile (wVersionOf "other") (by decide),
   upsert_constraint_enforced.2 false emptyCache wFile (wVersionOf "ch")
     (fun f hf => absurd hf (List.not_mem_nil f))⟩

/-- C10: with the dry-run flag set, the constraint is still checked
first — a mismatched pair fails with `Constraint`; only a pair satisfying
the constraint short-circuits to success, and in both cases the database
state is untouched. -/
theorem upsert_dry_run_constraint_first :
    (∀ (s : CacheState) (file : FileP) (version : Version),
        file.content_hash ≠ version.hash →
        Repository.upsert true s file version = (.error .constraint, s)) ∧
    (∀ (s : CacheState) (file : FileP) (version : Version),
        file.content_hash = version.hash →
        Repository.upsert true s file version = (.ok (), s)) := by
  constructor
  · intro s file version h
    unfold Repository.upsert
    rw [if_pos h]
  · intro s file version h
    unfold Repository.upsert
    rw [if_neg (by simpa using h)]
    rfl

/-- Witness for `upsert_dry_run_constraint_first` at concrete inputs. -/
theorem upsert_dry_run_constraint_first_witness :
    Repository.upsert true emptyCache wFile (wVersionOf "other")
        = (.error .constraint, emptyCache) ∧
    Repository.upsert true emptyCache wFile (wVersionOf "ch") = (.ok (), emptyCache) :=
  ⟨upsert_dry_run_constraint_first.1 emptyCache wFile (wVersionOf "other") (by decide),
   upsert_dry_run_constraint_first.2 emptyCache wFile (wVersionOf "ch") (by decide)⟩

/-! ## Theorems for claim C2 (existence probe) -/

theorem FileP.ofRow_file_hash {r : FileRow} {f : FileP} (h : FileP.ofRow r = .ok f) :
    f.file_hash = r.file_hash := by
  unfold FileP.ofRow at h
  split at h
  · cases h
  · split at h
    · cases h; rfl
    · cases h

theorem getByTargetPath_ok_none_iff {s : CacheState} {t p : String}
    (hint : CacheIntegrity s) :
    Repository.getByTargetPath s t p = .ok Option.none ↔ rowAt s t p = Option.none := by
  constructor
  · intro h
    unfold Repository.getByTargetPath at h
    split at h
    · assumption
    · next frow hrow =>
      have hmem : frow ∈ s.files := List.mem_of_find?_eq_some hrow
      obtain ⟨vr, hvr, hh⟩ := hint frow hmem
      split at h
      · next hfind =>
        have := List.find?_eq_none.mp hfind vr hvr
        simp [hh] at this
      · split at h
        · cases h
        · split at h <;> cases h
  · intro h
    unfold Repository.getByTargetPath
    rw [show rowAt s t p = Option.none from h]

theorem getByTargetPath_ok_some {s : CacheState} {t p : String} {f : FileP} {v : Version}
    (h : Repository.getByTargetPath s t p = .ok (some (f, v))) :
    ∃ frow, rowAt s t p = some frow ∧ f.file_hash = frow.file_hash := by
  unfold Repository.getByTargetPath at h
  split at h
  · cases h
  · next frow hrow =>
    split at h
    · cases h
    · split at h
      · cases h
      · next f2 hf2 =>
        split at h
        · cases h
        · cases h
          exact ⟨frow, hrow, FileP.ofRow_file_hash hf2⟩

theorem exceptMap_ok_nil_iff {ε α β : Type} {g : α → Except ε β} {l : List α}
    {r : List β} (h : exceptMap g l = .ok r) : r = [] ↔ l = [] := by
  cases l with
  | nil =>
    unfold exceptMap at h
    cases h
    simp
  | cons a as =>
    unfold exceptMap at h
    split at h
    · cases h
    · split at h
      · cases h
      · cases h
        simp

theorem fileHashJoinRows_eq_nil_iff {s : CacheState} {hsh : String}
    (hint : CacheIntegrity s) :
    fileHashJoinRows s hsh = [] ↔ hashKnown s hsh = false := by
  constructor
  · intro h
    by_contra hny
    rw [Bool.not_eq_false, hashKnown, List.any_eq_true] at hny
    obtain ⟨fr, hfr, hq⟩ := hny
    obtain ⟨vr, hvr, hh⟩ := hint fr hfr
    have hfil : fr ∈ s.files.filter (fun f => decide (f.file_hash = hsh)) :=
      List.mem_filter.mpr ⟨hfr, hq⟩
    have hfind : (s.versions.find? (fun v => decide (v.content_hash = fr.content_hash))).isSome :=
      List.find?_isSome.mpr ⟨vr, hvr, by simp [hh]⟩
    rcases Option.isSome_iff_exists.mp hfind with ⟨w, hw⟩
    have hmem : (fr, w) ∈ fileHashJoinRows s hsh := by
      unfold fileHashJoinRows
      exact List.mem_filterMap.mpr ⟨fr, hfil, by rw [hw]; rfl⟩
    rw [h] at hmem
    cases hmem
  · intro h
    unfold fileHashJoinRows
    have hfil : s.files.filter (fun f => decide (f.file_hash = hsh)) = [] := by
      rw [List.filter_eq_nil_iff]
      intro a ha
      rw [hashKnown] at h
      have := List.any_eq_false.mp h a ha
      simpa using this
    rw [hfil]
    rfl

theorem getByFileHash_ok_nil_iff {s : CacheState} {hsh : String}
    {rows : List (FileP × Version)} (hint : CacheIntegrity s)
    (h : Repository.getByFileHash s hsh = .ok rows) :
    rows = [] ↔ hashKnown s hsh = false := by
  unfold Repository.getByFileHash at h
  rw [exceptMap_ok_nil_iff h]
  exact fileHashJoinRows_eq_nil_iff hint

/-- C2: under the referential integrity of the schema, a successful existence
probe returns exactly one of four outcomes, characterized by the state:
`NotFound` iff no record at `(target, path)` and no file anywhere has the
file hash; `ExactMatch` iff the record at that path has the probed file
hash; `HashMismatch` iff the record at that path has a different file
hash; `LocatedElsewhere` iff there is no record at that path but some file
row elsewhere carries the hash. -/
theorem existsProbe_four_outcomes
    (s : CacheState) (t p hsh : String) (r : ExistenceResult)
    (hint : CacheIntegrity s)
    (hok : Repository.existsProbe s t p hsh = .ok r) :
    (r = .notFound ↔ (rowAt s t p = Option.none ∧ hashKnown s hsh = false)) ∧
    ((∃ f v, r = .exactMatch f v) ↔ (∃ fr, rowAt s t p = some fr ∧ fr.file_hash = hsh)) ∧
    ((∃ f v, r = .hashMismatch f v) ↔ (∃ fr, rowAt s t p = some fr ∧ fr.file_hash ≠ hsh)) ∧
    ((∃ f v, r = .locatedElsewhere f v) ↔
      (rowAt s t p = Option.none ∧ hashKnown s hsh = true)) := by
  unfold Repository.existsProbe at hok
  split at hok
  · cases hok
  · next f v heq =>
    obtain ⟨frow, hrow, hfh⟩ := getByTargetPath_ok_some heq
    split at hok <;> cases hok
    · next hc =>
      refine ⟨by simp [hrow], ?_, ?_, by simp [hrow]⟩
      · constructor
        · intro _
          exact ⟨frow, hrow, by rw [← hfh]; exact hc⟩
        · intro _
          exact ⟨f, v, rfl⟩
      · constructor
        · rintro ⟨f2, v2, h2⟩
          cases h2
        · rintro ⟨fr, hfr, hne⟩
          rw [hrow] at hfr
          cases hfr
          exact absurd (hfh ▸ hc) hne
    · next hc =>
      refine ⟨by simp [hrow], ?_, ?_, by simp [hrow]⟩
      · constructor
        · rintro ⟨f2, v2, h2⟩
          cases h2
        · rintro ⟨fr, hfr, hq⟩
          rw [hrow] at hfr
          cases hfr
          exact absurd (hfh ▸ hq) hc
      · constructor
        · intro _
          exact ⟨frow, hrow, fun hq => hc (hfh ▸ hq)⟩
        · intro _
          exact ⟨f, v, rfl⟩
  · next heq =>
    have hrow : rowAt s t p = Option.none := (getByTargetPath_ok_none_iff hint).mp heq
    split at hok
    · cases hok
    · next rows heqf =>
      split at hok <;> cases hok
      · next fv hhead =>
        have hne : rows ≠ [] := by
          intro hnil
          rw [hnil] at hhead
          cases hhead
        have hkn : hashKnown s hsh = true := by
          rcases hv : hashKnown s hsh with _ | _
          · exact absurd ((getByFileHash_ok_nil_iff hint heqf).mpr hv) hne
          · rfl
        refine ⟨?_, ?_, ?_, ?_⟩
        · simp [hkn]
        · constructor
          · rintro ⟨f2, v2, h2⟩
            cases h2
          · rintro ⟨fr, hfr, _⟩
            rw [hrow] at hfr
            cases hfr
        · constructor
          · rintro ⟨f2, v2, h2⟩
            cases h2
          · rintro ⟨fr, hfr, _⟩
            rw [hrow] at hfr
            cases hfr
        · exact ⟨fun _ => ⟨hrow, hkn⟩, fun _ => ⟨fv.1, fv.2, rfl⟩⟩
      · next hhead =>
        have hnil : rows = [] := by
          cases rows with
          | nil => rfl
          | cons a as => cases hhead
        have hkn : hashKnown s hsh = false := (getByFileHash_ok_nil_iff hint heqf).mp hnil
        refine ⟨⟨fun _ => ⟨hrow, hkn⟩, fun _ => rfl⟩, ?_, ?_, ?_⟩
        · constructor
          · rintro ⟨f2, v2, h2⟩
            cases h2
          · rintro ⟨fr, hfr, _⟩
            rw [hrow] at hfr
            cases hfr
        · constructor
          · rintro ⟨f2, v2, h2⟩
            cases h2
          · rintro ⟨fr, hfr, _⟩
            rw [hrow] at hfr
            cases hfr
        · simp [hkn]

/-- Witness for `existsProbe_four_outcomes`: the probe on the concrete
one-row state returns `ExactMatch` and the characterization holds. -/
theorem existsProbe_four_outcomes_witness :
    ∃ r, Repository.existsProbe wCache "local" "a/b.html.bz2" "fh" = .ok r ∧
      ((r = .notFound ↔ (rowAt wCache "local" "a/b.html.bz2" = Option.none ∧
          hashKnown wCache "fh" = false)) ∧
        ((∃ f v, r = .exactMatch f v) ↔
          (∃ fr, rowAt wCache "local" "a/b.html.bz2" = some fr ∧ fr.file_hash = "fh")) ∧
        ((∃ f v, r = .hashMismatch f v) ↔
          (∃ fr, rowAt wCache "local" "a/b.html.bz2" = some fr ∧ fr.file_hash ≠ "fh")) ∧
        ((∃ f v, r = .locatedElsewhere f v) ↔
          (rowAt wCache "local" "a/b.html.bz2" = Option.none ∧
            hashKnown wCache "fh" = true))) := by
  refine ⟨_, rfl, existsProbe_four_outcomes wCache "local" "a/b.html.bz2" "fh" _ ?_ rfl⟩
  intro f hf
  have : f = wFileRow := by
    simpa [wCache] using hf
  exact ⟨wVersionRow, by simp [wCache], by rw [this]; rfl⟩

/-! ## Round-trip and post-upsert lookup lemmas (for the scan theorems) -/

theorem Compression.parse_toText (c : Compression) :
    Compression.parseText c.toText = some c := by
  cases c <;> rfl

/-- A file row written by `FileRow::try_from` decodes back to the same
`FileInfo<Processed>`. -/
theorem FileP.ofRow_ofFileP {f : FileP} {r : FileRow}
    (h : FileRow.ofFileP f = .ok r) : FileP.ofRow r = .ok f := by
  unfold FileRow.ofFileP at h
  split at h
  · cases h
    unfold FileP.ofRow
    rw [Compression.parse_toText]
    simp
  · cases h

theorem FileRow.ofFileP_target {f : FileP} {r : FileRow}
    (h : FileRow.ofFileP f = .ok r) : r.target = f.meta.target := by
  unfold FileRow.ofFileP at h
  split at h
  · cases h; rfl
  · cases h

theorem FileRow.ofFileP_path {f : FileP} {r : FileRow}
    (h : FileRow.ofFileP f = .ok r) : r.path = f.meta.path := by
  unfold FileRow.ofFileP at h
  split at h
  · cases h; rfl
  · cases h

/-- A version row written by `VersionRow::try_from` decodes back to the
same `Version`. -/
theorem Version.ofRow_ofVersion {v : Version} {r : VersionRow}
    (h : VersionRow.ofVersion v = .ok r) : Version.ofRow r = .ok v := by
  unfold VersionRow.ofVersion at h
  split at h <;> try cases h
  split at h <;> try cases h
  split at h <;> cases h
  unfold Version.ofRow
  simp

/-- Replacing every matching row leaves the written row as the first
match. -/
theorem find?_map_replace (f : FileRow) :
    ∀ fs : List FileRow,
      fs.any (fun g => g.target = f.target && g.path = f.path) = true →
      ((fs.map fun g => if g.target = f.target && g.path = f.path then f else g).find?
          (fun g => g.target = f.target && g.path = f.path)) = some f := by
  intro fs
  induction fs with
  | nil => intro h; simp at h
  | cons a as ih =>
    intro h
    by_cases hc : (a.target = f.target ∧ a.path = f.path)
    · simp only [List.map_cons]
      rw [if_pos (by simp [hc.1, hc.2])]
      simp [List.find?]
    · have hpred : (decide (a.target = f.target) && decide (a.path = f.path)) = false := by
        rcases not_and_or.mp hc with h1 | h1 <;> simp [h1]
      have htail : as.any (fun g => g.target = f.target && g.path = f.path) = true := by
        simp only [List.any_cons, hpred, Bool.false_or] at h
        exact h
      simp only [List.map_cons]
      rw [if_neg (by simp [Bool.and_eq_true] at hpred ⊢; tauto)]
      rw [List.find?_cons_of_neg _ (by simp [hpred])]
      exact ih htail

/-- After an insert-or-replace, the row at the written key is the written
row. -/
theorem find?_upsertFileRow (fs : List FileRow) (f : FileRow) :
    (upsertFileRow fs f).find? (fun g => g.target = f.target && g.path = f.path)
      = some f := by
  unfold upsertFileRow
  split
  · next hany => exact find?_map_replace f fs hany
  · next hany =>
    rw [Bool.not_eq_true] at hany
    rw [List.find?_append]
    rw [List.find?_eq_none.mpr]
    · simp [List.find?]
    · intro x hx
      have := List.any_eq_false.mp hany x hx
      simpa using this

/-- After an insert-or-ignore of a version row, some row with its content
hash is present and is either a pre-existing row or the new one. -/
theorem find?_upsertVersionRow (vs : List VersionRow) (v : VersionRow) :
    ∃ w, (upsertVersionRow vs v).find? (fun x => x.content_hash = v.content_hash)
        = some w ∧ (w ∈ vs ∨ w = v) := by
  unfold upsertVersionRow
  split
  · next hany =>
    rcases List.any_eq_true.mp hany with ⟨x, hx, hdec⟩
    have hsome : (vs.find? (fun x => decide (x.content_hash = v.content_hash))).isSome :=
      List.find?_isSome.mpr ⟨x, hx, hdec⟩
    rcases Option.isSome_iff_exists.mp hsome with ⟨w, hw⟩
    exact ⟨w, hw, Or.inl (List.mem_of_find?_eq_some hw)⟩
  · next hany =>
    rw [Bool.not_eq_true] at hany
    refine ⟨v, ?_, Or.inr rfl⟩
    rw [List.find?_append]
    rw [List.find?_eq_none.mpr]
    · simp [List.find?]
    · intro x hx
      have := List.any_eq_false.mp hany x hx
      simpa using this

/-- After a successful non-dry-run upsert, looking the pair up by the
key of the file succeeds and returns the same file together with a decodable
version (in a cache whose version rows all decode). -/
theorem getByTargetPath_after_upsert {s s2 : CacheState} {f : FileP} {v : Version}
    (hdec : ∀ vr ∈ s.versions, ∃ v2, Version.ofRow vr = .ok v2)
    (h : Repository.upsert false s f v = (.ok (), s2)) :
    ∃ v2, Repository.getByTargetPath s2 f.meta.target f.meta.path = .ok (some (f, v2)) := by
  unfold Repository.upsert at h
  split at h
  · exact absurd h (by simp)
  · next hch =>
    push_neg at hch
    rw [if_neg (by simp)] at h
    split at h
    · exact absurd h (by simp)
    · next vrow hv =>
      split at h
      · exact absurd h (by simp)
      · next frow hf =>
        have hs2 : s2 = { files := upsertFileRow s.files frow
                          versions := upsertVersionRow s.versions vrow } := by
          have := congrArg Prod.snd h
          simpa using this.symm
        subst hs2
        have htg := FileRow.ofFileP_target hf
        have hpa := FileRow.ofFileP_path hf
        have hrow : rowAt
            { files := upsertFileRow s.files frow
              versions := upsertVersionRow s.versions vrow } f.meta.target f.meta.path
            = some frow := by
          unfold rowAt
          rw [← htg, ← hpa]
          exact find?_upsertFileRow s.files frow
        obtain ⟨w, hw, hwor⟩ := find?_upsertVersionRow s.versions vrow
        have hwhash : frow.content_hash = vrow.content_hash := by
          rw [FileRow.ofFileP_content_hash hf, VersionRow.ofVersion_content_hash hv, hch]
        obtain ⟨v2, hv2⟩ : ∃ v2, Version.ofRow w = .ok v2 := by
          rcases hwor with hmem | rfl
          · exact hdec w hmem
          · exact ⟨v, Version.ofRow_ofVersion hv⟩
        refine ⟨v2, ?_⟩
        simp only [Repository.getByTargetPath, hrow, hwhash, hw,
          FileP.ofRow_ofFileP hf, hv2]

/-! ## Theorems for claim C4 (cache-hit scan does no work) -/

/-- The path+size cache hit returns the cached pair immediately: one
database read, no state change. -/
theorem scanFileInner_cached_run (ext : Ext) (dryRun : Bool) (file : FileMeta)
    (w : World) (cf : FileP) (v : Version)
    (hget : Repository.getByTargetPath w.cache w.backendName file.path = .ok (some (cf, v)))
    (hsz : file.size = cf.meta.size) :
    scanFileInner ext dryRun file w
      = (.ok { file := cf, version := v, effort := .cached }, w, [.dbRead]) := by
  unfold scanFileInner
  simp only [Bind.bind, M.bind, M.getWorld, cacheGetOp, hget, M.pure, hsz, if_pos,
    List.nil_append, List.append_nil]

theorem deleteByTargetPath_versions (dr : Bool) (s : CacheState) (t p : String) :
    (Repository.deleteByTargetPath dr s t p).versions = s.versions := by
  unfold Repository.deleteByTargetPath
  split <;> rfl

/-- A successful non-dry-run `scanFinish` leaves a cache entry for the
scanned file at its own key. -/
theorem scanFinish_ok_entry (ext : Ext) (file : FileMeta) (fhash : String)
    (bytes : List Nat) (eff : ScanEffort) (w w2 : World) (scan : Scan) (effs : List Eff)
    (hdec : ∀ vr ∈ w.cache.versions, ∃ v2, Version.ofRow vr = .ok v2)
    (h : scanFinish ext false file fhash bytes eff w = (.ok scan, w2, effs)) :
    w2.backendName = w.backendName ∧ scan.file.meta = file ∧
    ∃ v2, Repository.getByTargetPath w2.cache file.target file.path
        = .ok (some (scan.file, v2)) := by
  rcases hd : ext.decompress file.compression bytes with e | content
  · have hrun : scanFinish ext false file fhash bytes eff w
        = (.error ScanErr.compression, w, []) := by
      unfold scanFinish
      simp only [Bind.bind, M.bind, M.liftExcept, hd]
    rw [hrun] at h
    simp at h
  rcases he : ext.extractDoc content with e | version
  · have hrun : scanFinish ext false file fhash bytes eff w
        = (.error ScanErr.extract, w, []) := by
      unfold scanFinish
      simp only [Bind.bind, M.bind, M.liftExcept, hd, he]
      simp
    rw [hrun] at h
    simp at h
  rcases hu : Repository.upsert false w.cache (file.withHashes fhash version.hash) version
      with ⟨res, s⟩
  rcases res with e2 | u
  · have hrun : scanFinish ext false file fhash bytes eff w
        = (.error ScanErr.cache, { w with cache := s }, []) := by
      unfold scanFinish
      simp only [Bind.bind, M.bind, M.liftExcept, M.pure, cacheUpsertOp, hd, he, hu]
      simp
    rw [hrun] at h
    simp at h
  · have hrun : scanFinish ext false file fhash bytes eff w
        = (.ok { file := file.withHashes fhash version.hash, version := version
                 effort := eff }, { w with cache := s }, [.dbWrite]) := by
      unfold scanFinish
      simp only [Bind.bind, M.bind, M.liftExcept, M.pure, cacheUpsertOp, hd, he, hu]
      simp
    rw [hrun] at h
    simp only [Prod.mk.injEq, Except.ok.injEq] at h
    obtain ⟨hscan, hw2, _⟩ := h
    obtain ⟨v2, hv2⟩ := getByTargetPath_after_upsert hdec hu
    subst hw2
    refine ⟨rfl, ?_, ?_⟩
    · rw [← hscan]
      rfl
    · exact ⟨v2, by rw [← hscan]; exact hv2⟩

/-- A successful non-dry-run `scanRest` leaves a cache entry for the
scanned file at its own key. -/
theorem scanRest_ok_entry (ext : Ext) (file : FileMeta) (w w2 : World)
    (scan : Scan) (effs : List Eff)
    (hdec : ∀ vr ∈ w.cache.versions, ∃ v2, Version.ofRow vr = .ok v2)
    (h : scanRest ext false file w = (.ok scan, w2, effs)) :
    w2.backendName = w.backendName ∧ scan.file.meta = file ∧
    ∃ v2, Repository.getByTargetPath w2.cache file.target file.path
        = .ok (some (scan.file, v2)) := by
  rcases hl : lookupBackend w file.path with _ | bytes
  · have hrun : scanRest ext false file w = (.error ScanErr.storage, w, [.beRead file.path]) := by
      unfold scanRest
      simp only [Bind.bind, M.bind, M.getWorld, backendReadOp, hl]
      simp
    rw [hrun] at h
    simp at h
  rcases hp : Repository.existsProbe w.cache w.backendName file.path (ext.hashBytes bytes)
      with e | exres
  · have hrun : scanRest ext false file w
        = (.error ScanErr.cache, w, [.beRead file.path, .dbRead]) := by
      unfold scanRest
      simp only [Bind.bind, M.bind, M.getWorld, backendReadOp, cacheExistsOp, hl, hp]
      simp
    rw [hrun] at h
    simp at h
  rcases exres with _ | ⟨f0, v0⟩ | ⟨f0, v0⟩ | ⟨other, version⟩
  · -- NotFound: straight to scanFinish on w
    rcases hfin : scanFinish ext false file (ext.hashBytes bytes) bytes .processed w
        with ⟨r, w3, e3⟩
    have hrun : scanRest ext false file w
        = (r, w3, [.beRead file.path, .dbRead] ++ e3) := by
      unfold scanRest
      simp only [Bind.bind, M.bind, M.getWorld, backendReadOp, cacheExistsOp, hl, hp, hfin]
      simp
    rw [hrun] at h
    simp only [Prod.mk.injEq] at h
    obtain ⟨hr, hw3, _⟩ := h
    subst hr; subst hw3
    exact scanFinish_ok_entry ext file _ bytes _ w w3 scan e3 hdec hfin
  · -- ExactMatch: delete the stale row, then scanFinish
    rcases hfin : scanFinish ext false file (ext.hashBytes bytes) bytes .recalculated
        { w with cache := Repository.deleteByTargetPath false w.cache w.backendName file.path }
        with ⟨r, w3, e3⟩
    have hrun : scanRest ext false file w
        = (r, w3, [.beRead file.path, .dbRead, .dbWrite] ++ e3) := by
      unfold scanRest
      simp only [Bind.bind, M.bind, M.getWorld, backendReadOp, cacheExistsOp,
        cacheDeleteOp, hl, hp, hfin]
      simp
    rw [hrun] at h
    simp only [Prod.mk.injEq] at h
    obtain ⟨hr, hw3, _⟩ := h
    subst hr; subst hw3
    have hdec2 : ∀ vr ∈ (Repository.deleteByTargetPath false w.cache w.backendName
        file.path).versions, ∃ v2, Version.ofRow vr = .ok v2 := by
      rw [deleteByTargetPath_versions]
      exact hdec
    exact scanFinish_ok_entry ext file _ bytes _
      { w with cache := Repository.deleteByTargetPath false w.cache w.backendName file.path }
      w3 scan e3 hdec2 hfin
  · -- HashMismatch: same as ExactMatch
    rcases hfin : scanFinish ext false file (ext.hashBytes bytes) bytes .recalculated
        { w with cache := Repository.deleteByTargetPath false w.cache w.backendName file.path }
        with ⟨r, w3, e3⟩
    have hrun : scanRest ext false file w
        = (r, w3, [.beRead file.path, .dbRead, .dbWrite] ++ e3) := by
      unfold scanRest
      simp only [Bind.bind, M.bind, M.getWorld, backendReadOp, cacheExistsOp,
        cacheDeleteOp, hl, hp, hfin]
      simp
    rw [hrun] at h
    simp only [Prod.mk.injEq] at h
    obtain ⟨hr, hw3, _⟩ := h
    subst hr; subst hw3
    have hdec2 : ∀ vr ∈ (Repository.deleteByTargetPath false w.cache w.backendName
        file.path).versions, ∃ v2, Version.ofRow vr = .ok v2 := by
      rw [deleteByTargetPath_versions]
      exact hdec
    exact scanFinish_ok_entry ext file _ bytes _
      { w with cache := Repository.deleteByTargetPath false w.cache w.backendName file.path }
      w3 scan e3 hdec2 hfin
  · -- LocatedElsewhere: adopt the content hash and upsert
    rcases hu : Repository.upsert false w.cache
        (file.withHashes (ext.hashBytes bytes) other.content_hash) version with ⟨res, s⟩
    rcases res with e2 | u
    · have hrun : scanRest ext false file w
          = (.error ScanErr.cache, { w with cache := s }, [.beRead file.path, .dbRead]) := by
        unfold scanRest
        simp only [Bind.bind, M.bind, M.getWorld, backendReadOp, cacheExistsOp,
          cacheUpsertOp, M.pure, hl, hp, hu]
        simp
      rw [hrun] at h
      simp at h
    · have hrun : scanRest ext false file w
          = (.ok { file := file.withHashes (ext.hashBytes bytes) other.content_hash
                   version := version, effort := .cached },
              { w with cache := s }, [.beRead file.path, .dbRead, .dbWrite]) := by
        unfold scanRest
        simp only [Bind.bind, M.bind, M.getWorld, backendReadOp, cacheExistsOp,
          cacheUpsertOp, M.pure, hl, hp, hu]
        simp
      rw [hrun] at h
      simp only [Prod.mk.injEq, Except.ok.injEq] at h
      obtain ⟨hscan, hw2, _⟩ := h
      obtain ⟨v2, hv2⟩ := getByTargetPath_after_upsert hdec hu
      subst hw2
      exact ⟨rfl, by rw [← hscan]; rfl, ⟨v2, by rw [← hscan]; exact hv2⟩⟩

/-- A successful non-dry-run `scan_file_inner` leaves (or finds) a cache
entry at `(backend.name, file.path)` whose recorded size equals the input
size. -/
theorem scanFileInner_ok_entry (ext : Ext) (file : FileMeta) (w w2 : World)
    (scan : Scan) (effs : List Eff)
    (htgt : file.target = w.backendName)
    (hdec : ∀ vr ∈ w.cache.versions, ∃ v2, Version.ofRow vr = .ok v2)
    (h : scanFileInner ext false file w = (.ok scan, w2, effs)) :
    w2.backendName = w.backendName ∧ file.size = scan.file.meta.size ∧
    ∃ v2, Repository.getByTargetPath w2.cache w.backendName file.path
        = .ok (some (scan.file, v2)) := by
  rcases hget : Repository.getByTargetPath w.cache w.backendName file.path
      with e | og
  · have hrun : scanFileInner ext false file w = (.error ScanErr.cache, w, [.dbRead]) := by
      unfold scanFileInner
      simp only [Bind.bind, M.bind, M.getWorld, cacheGetOp, hget]
      simp
    rw [hrun] at h
    simp at h
  rcases og with _ | ⟨cf, v⟩
  · -- no entry: scanRest
    rcases hr : scanRest ext false file w with ⟨r, w3, e3⟩
    have hrun : scanFileInner ext false file w = (r, w3, [.dbRead] ++ e3) := by
      unfold scanFileInner
      simp only [Bind.bind, M.bind, M.getWorld, cacheGetOp, hget, hr]
      simp
    rw [hrun] at h
    simp only [Prod.mk.injEq] at h
    obtain ⟨h1, h2, _⟩ := h
    subst h1; subst h2
    obtain ⟨hbn, hmeta, v2, hv2⟩ := scanRest_ok_entry ext file w w3 scan e3 hdec hr
    rw [htgt] at hv2
    exact ⟨hbn, by rw [← hmeta], ⟨v2, hv2⟩⟩
  · by_cases hsz : file.size = cf.meta.size
    · have hrun := scanFileInner_cached_run ext false file w cf v hget hsz
      rw [hrun] at h
      simp only [Prod.mk.injEq, Except.ok.injEq] at h
      obtain ⟨hscan, hw2, _⟩ := h
      subst hw2
      refine ⟨rfl, ?_, ⟨v, ?_⟩⟩
      · rw [← hscan]; exact hsz
      · rw [← hscan]; exact hget
    · rcases hr : scanRest ext false file w with ⟨r, w3, e3⟩
      have hrun : scanFileInner ext false file w = (r, w3, [.dbRead] ++ e3) := by
        unfold scanFileInner
        simp only [Bind.bind, M.bind, M.getWorld, cacheGetOp, hget, hr]
        rw [if_neg hsz]
        simp [hr]
      rw [hrun] at h
      simp only [Prod.mk.injEq] at h
      obtain ⟨h1, h2, _⟩ := h
      subst h1; subst h2
      obtain ⟨hbn, hmeta, v2, hv2⟩ := scanRest_ok_entry ext file w w3 scan e3 hdec hr
      rw [htgt] at hv2
      exact ⟨hbn, by rw [← hmeta], ⟨v2, hv2⟩⟩

/-- C4: a path+size cache hit returns the cached (file, version) pair
with effort `Cached`, performing exactly one database read — no backend
read, no cache write, no state change; and (given a cache whose version
rows decode) a second non-dry-run scan of the same unchanged file after
any successful scan is such a hit: it yields effort `Cached` and leaves
the world unchanged. -/
theorem scan_cached_no_work :
    (∀ (ext : Ext) (dryRun : Bool) (file : FileMeta) (w : World) (cf : FileP) (v : Version),
        Repository.getByTargetPath w.cache w.backendName file.path = .ok (some (cf, v)) →
        file.size = cf.meta.size →
        scanFileInner ext dryRun file w
          = (.ok { file := cf, version := v, effort := .cached }, w, [.dbRead])) ∧
    (∀ (ext : Ext) (file : FileMeta) (w w2 : World) (scan : Scan) (effs : List Eff),
        file.target = w.backendName →
        (∀ vr ∈ w.cache.versions, ∃ v2, Version.ofRow vr = .ok v2) →
        scanFileInner ext false file w = (.ok scan, w2, effs) →
        ∃ v2, scanFileInner ext false file w2
          = (.ok { file := scan.file, version := v2, effort := .cached }, w2, [.dbRead])) := by
  constructor
  · exact scanFileInner_cached_run
  · intro ext file w w2 scan effs htgt hdec h
    obtain ⟨hbn, hsz, v2, hv2⟩ := scanFileInner_ok_entry ext file w w2 scan effs htgt hdec h
    refine ⟨v2, scanFileInner_cached_run ext false file w2 scan.file v2 ?_ hsz⟩
    rw [hbn]
    exact hv2

/-- Witness for `scan_cached_no_work` at concrete inputs. -/
theorem scan_cached_no_work_witness :
    scanFileInner wExt false wFileMeta wWorld
      = (.ok { file := wFileP2, version := wVer, effort := .cached }, wWorld, [.dbRead]) ∧
    ∃ v2, scanFileInner wExt false wFileMeta wWorld
      = (.ok { file := wFileP2, version := v2, effort := .cached }, wWorld, [.dbRead]) :=
 by
  have hget : Repository.getByTargetPath wWorld.cache wWorld.backendName wFileMeta.path
      = .ok (some (wFileP2, wVer)) := by decide
  have hdec : ∀ vr ∈ wWorld.cache.versions, ∃ v2, Version.ofRow vr = .ok v2 := by
    intro vr hvr
    have hv : vr = wVersionRow := by simpa [wWorld, wCache] using hvr
    rw [hv]
    exact ⟨wVer, by decide⟩
  exact ⟨scan_cached_no_work.1 wExt false wFileMeta wWorld wFileP2 wVer hget rfl,
    scan_cached_no_work.2 wExt wFileMeta wWorld wWorld
      { file := wFileP2, version := wVer, effort := .cached } [.dbRead] rfl hdec
      (scan_cached_no_work.1 wExt false wFileMeta wWorld wFileP2 wVer hget rfl)⟩

/-! ## Theorems for claim C9 (organize of an already-correct file) -/

/-- C9 amended: organizing a cached file whose current path equals its
template-derived path returns `AlreadyCorrect` and leaves the world
unchanged; the only backend operation performed is the single existence
probe of the current path (plus one cache read) — no backend read, write,
rename, delete or stat. -/
theorem organize_already_correct (ext : Ext) (dryRun : Bool) (ctxComp : Option Compression)
    (n : Nat) (file : FileMeta) (depth : List String) (w : World) (fp : FileP) (v : Version)
    (htgt : file.target = w.backendName)
    (hex : (lookupBackend w file.path).isSome = true)
    (hget : Repository.getByTargetPath w.cache file.target file.path = .ok (some (fp, v)))
    (htpl : ext.templateGen v (ctxComp.getD fp.meta.compression) = .ok fp.meta.path) :
    organizeFileInner ext dryRun ctxComp (n + 1) file depth w
      = (.ok (Action.alreadyCorrect fp.meta.path), w, [.beExists file.path, .dbRead]) := by
  unfold organizeFileInner
  simp only [Bind.bind, M.bind, M.getWorld]
  rw [if_neg (by simp [htgt])]
  simp only [backendExistsOp, M.bind, hex]
  rw [if_neg (by simp)]
  simp only [M.bind, cacheGetOp, hget, M.pure, M.liftExcept, htpl]
  simp [M.pure]

/-- C9 counterexample: even for a file already at its correct path, the
organize pass performs an I/O operation on the storage backend — the
`backend.exists` probe of the current path (organize/file.rs line 74) runs
before the path comparison, so the claim "performs no I/O operations on
the storage backend" fails. -/
theorem organize_already_correct_probes_backend :
    organizeFileInner c9Ext false Option.none 3 wFileMeta [] wWorld
      = (.ok (Action.alreadyCorrect "a/b.html.bz2"), wWorld,
          [Eff.beExists "a/b.html.bz2", Eff.dbRead]) ∧
    Eff.beExists "a/b.html.bz2" ∈ [Eff.beExists "a/b.html.bz2", Eff.dbRead] := by
  exact ⟨by decide, by decide⟩

/-- Witness for `organize_already_correct` at the same concrete inputs. -/
theorem organize_already_correct_witness :
    organizeFileInner c9Ext false Option.none 2 wFileMeta [] wWorld
      = (.ok (Action.alreadyCorrect "a/b.html.bz2"), wWorld,
          [Eff.beExists "a/b.html.bz2", Eff.dbRead]) :=
  organize_already_correct c9Ext false Option.none 1 wFileMeta [] wWorld wFileP2 wVer
    rfl (by decide) (by decide) (by decide)

/-! ## Theorems for claim C5 (conflict-resolution depth guard) -/

/-- C5 amended: once the existing occupant is resolved from the cache and
the content hashes differ, conflict resolution fails with `Conflict` —
before recursing, leaving the world unchanged — exactly when the depth
stack is *longer than* `MAX_CONFLICT_DEPTH = 5` (i.e. has length ≥ 6) or
already contains the path of the existing file; consequently chains of
recursive relocations are bounded by 6, not 5. -/
theorem conflict_guard_bails (ext : Ext) (dryRun : Bool)
    (recurse : FileMeta → List String → M OrgErr Action)
    (incoming : FileP) (existing : FileMeta) (depth : List String) (w : World)
    (cached : FileP) (v : Version)
    (hget : Repository.getByTargetPath w.cache incoming.meta.target existing.path
      = .ok (some (cached, v)))
    (hne : incoming.content_hash ≠ cached.content_hash)
    (hguard : depth.length > maxConflictDepth ∨ cached.meta.path ∈ depth) :
    handleConflictGen ext dryRun recurse incoming existing depth w
      = (.error OrgErr.conflict, w, [.dbRead]) := by
  unfold handleConflictGen
  simp only [Bind.bind, M.bind, cacheGetOp, hget, M.pure, M.fail]
  rw [if_neg hne, if_pos hguard]
  simp [M.fail]

/-- C5 counterexample: with a depth stack of length exactly 5 (and no
cycle), `handle_conflict` does *not* fail with Conflict — the guard is
`depth.len() > 5`, so it recurses (here relocating the occupant to `pF`)
and reports the slot freed.  The claimed "length ≥ 5 fails" is wrong at
length 5. -/
theorem conflict_at_depth_five_recurses :
    (["q1", "q2", "q3", "q4", "q5"] : List String).length = 5 ∧
    (handleConflict c5Ext false Option.none 2 c5Incoming c5Existing
        ["q1", "q2", "q3", "q4", "q5"] c5World).1 = .ok Option.none := by
  exact ⟨by decide, by decide⟩

/-- Witness for `conflict_guard_bails`: at a depth stack of length 6 the
guard fires. -/
theorem conflict_guard_bails_witness :
    handleConflictGen c5Ext false (organizeFileInner c5Ext false Option.none 2)
        c5Incoming c5Existing ["q1", "q2", "q3", "q4", "q5", "q6"] c5World
      = (.error OrgErr.conflict, c5World, [.dbRead]) :=
  conflict_guard_bails c5Ext false (organizeFileInner c5Ext false Option.none 2)
    c5Incoming c5Existing ["q1", "q2", "q3", "q4", "q5", "q6"] c5World
    { meta := { target := "local", path := "pE", compression := .bzip2
                size := 4, discovered_at := 0 }
      file_hash := "fhE", content_hash := "chE" }
    { wVer with hash := "chE" } (by decide) (by decide) (by decide)

/-! ## Theorems for claim C8 (content-hash lookup, left-join semantics) -/

/-- C8: `get_by_content_hash` tolerates a version with no referencing
files — when the only version row with the hash has no file rows, the
lookup returns the version with an empty file list; all-NULL file columns
decode to an absent file; and mixed NULLs in the file columns fail with a
column-decode error. -/
theorem getByContentHash_left_join :
    (∀ (s : CacheState) (hsh : String) (vrow : VersionRow) (v : Version),
        s.versions.filter (fun w => w.content_hash = hsh) = [vrow] →
        s.files.filter (fun f => f.content_hash = hsh) = [] →
        Version.ofRow vrow = .ok v →
        Repository.getByContentHash s hsh = .ok (some (v, []))) ∧
    (∀ vrow : VersionRow, leftJoinFromCols vrow noFileCols = .ok Option.none) ∧
    (∀ (vrow : VersionRow) (c : RawFileCols),
        c.allSomeB = false → c.allNoneB = false →
        leftJoinFromCols vrow c = .error ()) := by
  refine ⟨?_, fun vrow => rfl, ?_⟩
  · intro s hsh vrow v hfv hff hconv
    have hvh : vrow.content_hash = hsh := by
      have hmem : vrow ∈ s.versions.filter (fun w => decide (w.content_hash = hsh)) := by
        rw [hfv]
        exact List.mem_singleton_self _
      simpa using (List.mem_filter.mp hmem).2
    have hrows : leftJoinRows s hsh = [(vrow, noFileCols)] := by
      unfold leftJoinRows
      rw [hfv]
      simp only [List.flatMap_cons, List.flatMap_nil, List.append_nil]
      rw [hvh, hff]
      rfl
    have h1 : exceptMap
        (fun rc =>
          match leftJoinFromCols rc.1 rc.2 with
          | .error _ => Except.error CacheErr.database
          | .ok ofr => Except.ok (rc.1, ofr))
        [(vrow, noFileCols)] = .ok [(vrow, (Option.none : Option FileRow))] := rfl
    have h2 : exceptMap
        (fun rc =>
          match rc.2 with
          | Option.none =>
            match Version.ofRow rc.1 with
            | .error e => Except.error e
            | .ok v => Except.ok ((Option.none : Option FileP), v)
          | some fr =>
            match FileP.ofRow fr with
            | .error e => Except.error e
            | .ok f =>
              match Version.ofRow rc.1 with
              | .error e => Except.error e
              | .ok v => Except.ok (some f, v))
        [(vrow, (Option.none : Option FileRow))]
        = .ok [((Option.none : Option FileP), v)] := by
      unfold exceptMap
      rw [show (match Version.ofRow vrow with
          | .error e => Except.error e
          | .ok v => Except.ok ((Option.none : Option FileP), v))
          = Except.ok ((Option.none : Option FileP), v) by rw [hconv]]
      rfl
    unfold Repository.getByContentHash
    rw [hrows, h1]
    show (if ([(vrow, (Option.none : Option FileRow))].isEmpty : Bool) then _ else _)
        = Except.ok (some (v, []))
    rw [if_neg (by simp)]
    rw [h2]
    rfl
  · intro vrow c hs hn
    rcases c with ⟨t, p, cp, fs, fh, d⟩
    cases t <;> cases p <;> cases cp <;> cases fs <;> cases fh <;> cases d <;>
      simp_all [leftJoinFromCols, RawFileCols.allSomeB, RawFileCols.allNoneB]

/-- Witness for `getByContentHash_left_join`: looking up the orphan
version returns it with an empty file list. -/
theorem getByContentHash_left_join_witness :
    Repository.getByContentHash wOrphanCache "ch" = .ok (some (wVer, [])) :=
  getByContentHash_left_join.1 wOrphanCache "ch" wVersionRow wVer (by decide) rfl rfl

end Rawr
